import Mathlib

/-!
Verification of the recursive lazy file-tree synchronization engine of
`vercel-deploy-source-downloader` (the TypeScript script embedded in the
repository's README, function `downloadSource` and its local helpers).

Strings are modelled as `List Char` so that the character-level behaviour of
the script's string operations (`startsWith`, `split`, the log-parsing regex,
`path.join`, `path.dirname`) can be reasoned about directly.  The filesystem,
network and log are modelled as explicit state threaded through the traversal:
pure functions of the code become pure Lean functions, and the `async`
recursion of `processNode` becomes a fuel-indexed structural recursion that
returns `none` on fuel exhaustion (the real recursion always terminates on
finite remote trees, so every theorem is stated for runs that return `some`).
-/

namespace VercelDL

/-- Character lists standing for JavaScript strings. -/
abbrev Str := List Char

/-- Convert a Lean string literal to the model's string type. -/
def lit (s : String) : Str := s.toList

/-- `isPre p s` models JavaScript `s.startsWith(p)`. -/
def isPre : Str → Str → Bool
  | [], _ => true
  | _ :: _, [] => false
  | a :: as, b :: bs => a == b && isPre as bs

theorem isPre_iff (p s : Str) : isPre p s = true ↔ p <+: s := by
  induction p generalizing s with
  | nil => simp [isPre, List.nil_prefix]
  | cons a as ih =>
    cases s with
    | nil => simp [isPre]
    | cons b bs =>
      simp [isPre, ih, List.cons_prefix_cons]

theorem isPre_refl_append (p t : Str) : isPre p (p ++ t) = true := by
  rw [isPre_iff]; exact ⟨t, rfl⟩

/-- Split a string at the first occurrence of `sep`: returns the part before
it and, if `sep` occurs, the part after it (models `indexOf`-style splitting
used by the URL query model). -/
def splitFirstAt (sep : Char) : Str → Str × Option Str
  | [] => ([], none)
  | c :: cs =>
    if c = sep then ([], some cs)
    else
      let r := splitFirstAt sep cs
      (c :: r.1, r.2)

/-- Split a string at every occurrence of `sep` (models `String.split`). -/
def splitAllAt (sep : Char) : Str → List Str
  | [] => [[]]
  | c :: cs =>
    if c = sep then [] :: splitAllAt sep cs
    else
      match splitAllAt sep cs with
      | [] => [[c]]
      | h :: t => (c :: h) :: t

theorem splitFirstAt_of_not_mem {sep : Char} {l : Str} (h : sep ∉ l) :
    splitFirstAt sep l = (l, none) := by
  induction l with
  | nil => rfl
  | cons c cs ih =>
    simp only [List.mem_cons, not_or] at h
    simp [splitFirstAt, Ne.symm h.1, ih h.2]

theorem splitFirstAt_append {sep : Char} {a : Str} (b : Str) (h : sep ∉ a) :
    splitFirstAt sep (a ++ sep :: b) = (a, some b) := by
  induction a with
  | nil => simp [splitFirstAt]
  | cons c cs ih =>
    simp only [List.mem_cons, not_or] at h
    simp [splitFirstAt, Ne.symm h.1, ih h.2]

theorem splitAllAt_of_not_mem {sep : Char} {l : Str} (h : sep ∉ l) :
    splitAllAt sep l = [l] := by
  induction l with
  | nil => rfl
  | cons c cs ih =>
    simp only [List.mem_cons, not_or] at h
    simp only [splitAllAt, if_neg (Ne.symm h.1), ih h.2]

theorem splitAllAt_append {sep : Char} {a : Str} (b : Str) (h : sep ∉ a) :
    splitAllAt sep (a ++ sep :: b) = a :: splitAllAt sep b := by
  induction a with
  | nil => simp [splitAllAt]
  | cons c cs ih =>
    simp only [List.mem_cons, not_or] at h
    have h2 := ih h.2
    simp only [List.cons_append, splitAllAt, if_neg (Ne.symm h.1)]
    rw [show List.append cs (sep :: b) = cs ++ sep :: b from rfl, h2]

theorem not_mem_of_mem_splitAllAt {sep : Char} {l piece : Str}
    (h : piece ∈ splitAllAt sep l) : sep ∉ piece := by
  induction l generalizing piece with
  | nil =>
    simp only [splitAllAt, List.mem_singleton] at h
    simp [h]
  | cons c cs ih =>
    by_cases hc : c = sep
    · subst hc
      simp only [splitAllAt, if_true, eq_self_iff_true, List.mem_cons] at h
      rcases h with h | h
      · simp [h]
      · exact ih h
    · simp only [splitAllAt, if_neg hc] at h
      rcases hs : splitAllAt sep cs with _ | ⟨p, ps⟩
      · rw [hs] at h
        simp only [List.mem_singleton] at h
        subst h
        intro hm
        rcases List.mem_singleton.mp hm with rfl
        exact hc rfl
      · rw [hs] at h
        simp only [List.mem_cons] at h
        rcases h with h | h
        · subst h
          intro hm
          rcases List.mem_cons.mp hm with rfl | hm
          · exact hc rfl
          · exact ih (hs ▸ List.mem_cons_self p ps) hm
        · exact ih (hs ▸ List.mem_cons_of_mem p h)

theorem splitFirstAt_fst_not_mem (sep : Char) (l : Str) :
    sep ∉ (splitFirstAt sep l).1 := by
  induction l with
  | nil => simp [splitFirstAt]
  | cons c cs ih =>
    by_cases hc : c = sep
    · simp [splitFirstAt, hc]
    · simp only [splitFirstAt, if_neg hc, List.mem_cons, not_or]
      exact ⟨fun h => hc h.symm, ih⟩

theorem splitFirstAt_reconstruct {sep : Char} {l a b : Str}
    (h : splitFirstAt sep l = (a, some b)) : l = a ++ sep :: b := by
  induction l generalizing a with
  | nil => simp [splitFirstAt] at h
  | cons c cs ih =>
    simp only [splitFirstAt] at h
    split at h
    · next hcs =>
      simp only [Prod.mk.injEq, Option.some.injEq] at h
      obtain ⟨rfl, rfl⟩ := h
      simp [hcs]
    · next hcs =>
      simp only [Prod.mk.injEq] at h
      obtain ⟨rfl, h2⟩ := h
      have h3 : splitFirstAt sep cs = ((splitFirstAt sep cs).1, some b) := by
        rw [← h2]
      rw [List.cons_append, ← ih h3]

/-! ## The URL model

`resolveFileUrl` (README.md, `downloadSource`, lines 1494–1519) uses the
WHATWG `URL` class only to test for and append a `teamId` query parameter.
The model below keeps a URL as the part before the first `?` plus the parsed
query pairs; `URLSearchParams` percent-encoding, fragments and host
normalisation are not exercised by the script and are not modelled. -/

/-- Parsed form of a URL: the part before the first `?` and the query pairs. -/
structure UrlM where
  base : Str
  params : List (Str × Str)
deriving DecidableEq

/-- Parse one `&`-separated query piece into a key/value pair
(`k=v` splits at the first `=`; a piece with no `=` gets an empty value). -/
def parsePiece (piece : Str) : Str × Str :=
  let r := splitFirstAt '=' piece
  (r.1, r.2.getD [])

/-- Parse a query string into pairs; empty pieces are skipped, as
`URLSearchParams` does. -/
def parseQuery (q : Str) : List (Str × Str) :=
  (splitAllAt '&' q).filterMap fun piece =>
    if piece = [] then none else some (parsePiece piece)

/-- Parse a URL string into the model (split at the first `?`). -/
def parseUrl (s : Str) : UrlM :=
  let r := splitFirstAt '?' s
  ⟨r.1, match r.2 with | none => [] | some q => parseQuery q⟩

/-- Serialise query pairs back to a query string (`k=v` joined by `&`). -/
def paramsToStr : List (Str × Str) → Str
  | [] => []
  | [(k, v)] => k ++ '=' :: v
  | (k, v) :: p :: rest => k ++ '=' :: v ++ '&' :: paramsToStr (p :: rest)

/-- Serialise a URL of the model back to a string (models `url.toString()`). -/
def urlToStr (u : UrlM) : Str :=
  match u.params with
  | [] => u.base
  | _ => u.base ++ '?' :: paramsToStr u.params

/-- Models `url.searchParams.has("teamId")`. -/
def hasTeamParam (u : UrlM) : Bool :=
  u.params.any fun kv => kv.1 == lit "teamId"

/-- Models `if (teamId && !url.searchParams.has("teamId"))
url.searchParams.set("teamId", teamId)`: when the parameter is absent,
`set` appends it at the end. -/
def addTeamIfAbsent (teamId : Option Str) (u : UrlM) : UrlM :=
  match teamId with
  | none => u
  | some t => if hasTeamParam u then u else ⟨u.base, u.params ++ [(lit "teamId", t)]⟩

/-- `c` is one of `[a-f0-9]`, the character class of the content-hash
pattern in `resolveFileUrl`. -/
def isHexDigit (c : Char) : Bool :=
  ('a' ≤ c && c ≤ 'f') || ('0' ≤ c && c ≤ '9')

/-- Models `link.match(/\/files\/([a-f0-9]+)$/)`: the regex engine tries
match start positions left to right; a match needs the literal `/files/`
followed by a non-empty all-hex run that extends to the end of the string.
Returns the captured hex group. -/
def hashSuffix : Str → Option Str
  | [] => none
  | c :: cs =>
    if isPre (lit "/files/") (c :: cs)
        && !(List.drop 7 (c :: cs)).isEmpty
        && (List.drop 7 (c :: cs)).all isHexDigit then
      some (List.drop 7 (c :: cs))
    else hashSuffix cs

/-- The hash-addressed download URL built in branch 1 of `resolveFileUrl`. -/
def hashUrlStr (deploymentId : Str) (teamId : Option Str) (h : Str) : Str :=
  lit "https://vercel.com/api/v7/deployments/" ++ deploymentId ++ lit "/files/" ++ h ++
    (match teamId with
     | some t => lit "?teamId=" ++ t
     | none => [])

/-- Parse a link for branches 2 and 3 of `resolveFileUrl`: an `http…` link is
parsed as-is (`new URL(link)`), a root-relative link is resolved against
`https://vercel.com` (`new URL(link, "https://vercel.com")`). -/
def parseLink (link : Str) : UrlM :=
  if isPre (lit "http") link then parseUrl link
  else ⟨lit "https://vercel.com" ++ (parseUrl link).base, (parseUrl link).params⟩

/-- Model of `resolveFileUrl` (README.md lines 1494–1519): (1) a link whose
tail matches `/files/([a-f0-9]+)$` becomes a hash-addressed deployment URL,
with `?teamId=` appended when a team is configured; (2) a link starting with
`"http"` or `"/"` is used as an absolute or root-relative URL, with the
`teamId` query parameter added only if not already present; (3) anything
else resolves to `null`. -/
def resolveFileUrl (deploymentId : Str) (teamId : Option Str) (link : Str) :
    Option Str :=
  match hashSuffix link with
  | some h => some (hashUrlStr deploymentId teamId h)
  | none =>
    if isPre (lit "http") link then
      some (urlToStr (addTeamIfAbsent teamId (parseUrl link)))
    else if isPre (lit "/") link then
      some (urlToStr (addTeamIfAbsent teamId
        ⟨lit "https://vercel.com" ++ (parseUrl link).base, (parseUrl link).params⟩))
    else
      none

/-! ## Properties of the URL model -/

/-- Well-formedness of query pairs that guarantees a faithful round trip
through serialisation: keys contain no `&` or `=`, values contain no `&`. -/
def wfParams (ps : List (Str × Str)) : Prop :=
  ∀ kv ∈ ps, '&' ∉ kv.1 ∧ '=' ∉ kv.1 ∧ '&' ∉ kv.2

theorem wfParams_append {ps qs : List (Str × Str)}
    (h1 : wfParams ps) (h2 : wfParams qs) : wfParams (ps ++ qs) := by
  intro kv hkv
  rcases List.mem_append.mp hkv with h | h
  · exact h1 kv h
  · exact h2 kv h

theorem splitFirstAt_none_eq {sep : Char} {l a : Str}
    (h : splitFirstAt sep l = (a, none)) : a = l := by
  induction l generalizing a with
  | nil =>
    simp only [splitFirstAt, Prod.mk.injEq] at h
    exact h.1.symm
  | cons c cs ih =>
    simp only [splitFirstAt] at h
    split at h
    · simp at h
    · simp only [Prod.mk.injEq] at h
      have h2 := ih (Prod.ext (rfl : (splitFirstAt sep cs).1 = _) h.2)
      rw [← h.1]
      exact congrArg (List.cons c) h2

theorem parsePiece_wf {piece : Str} (hamp : '&' ∉ piece) :
    '&' ∉ (parsePiece piece).1 ∧ '=' ∉ (parsePiece piece).1 ∧
      '&' ∉ (parsePiece piece).2 := by
  have heq : '=' ∉ (splitFirstAt '=' piece).1 := splitFirstAt_fst_not_mem '=' piece
  rcases h2 : (splitFirstAt '=' piece).2 with _ | v
  · have h1 : (splitFirstAt '=' piece).1 = piece :=
      splitFirstAt_none_eq (Prod.ext rfl h2)
    refine ⟨by simpa [parsePiece, h1] using hamp, by simpa [parsePiece] using heq, ?_⟩
    simp [parsePiece, h2]
  · have hrec : piece = (splitFirstAt '=' piece).1 ++ '=' :: v :=
      splitFirstAt_reconstruct (Prod.ext rfl h2)
    rw [hrec] at hamp
    simp only [List.mem_append, List.mem_cons, not_or] at hamp
    exact ⟨by simpa [parsePiece] using hamp.1,
      by simpa [parsePiece] using heq,
      by simpa [parsePiece, h2] using hamp.2.2⟩

theorem parseQuery_wf (q : Str) : wfParams (parseQuery q) := by
  intro kv hkv
  simp only [parseQuery, List.mem_filterMap] at hkv
  obtain ⟨piece, hp, hkv⟩ := hkv
  split at hkv
  · simp at hkv
  · have hamp : '&' ∉ piece := not_mem_of_mem_splitAllAt hp
    obtain rfl : parsePiece piece = kv := by simpa using hkv
    exact parsePiece_wf hamp

theorem parseUrl_params_wf (s : Str) : wfParams (parseUrl s).params := by
  simp only [parseUrl]
  rcases h : (splitFirstAt '?' s).2 with _ | q
  · intro kv hkv; simp at hkv
  · exact parseQuery_wf q

theorem parseUrl_base_no_query (s : Str) : '?' ∉ (parseUrl s).base :=
  splitFirstAt_fst_not_mem '?' s

theorem parseQuery_paramsToStr {ps : List (Str × Str)}
    (hwf : wfParams ps) (hne : ps ≠ []) :
    parseQuery (paramsToStr ps) = ps := by
  induction ps with
  | nil => exact absurd rfl hne
  | cons kv rest ih =>
    obtain ⟨k, v⟩ := kv
    have hw := hwf (k, v) (by simp)
    rcases rest with _ | ⟨p, rest⟩
    · have hnamp : '&' ∉ k ++ '=' :: v := by
        simp only [List.mem_append, List.mem_cons, not_or]
        exact ⟨hw.1, by simp, hw.2.2⟩
      simp only [paramsToStr, parseQuery, splitAllAt_of_not_mem hnamp,
        List.filterMap]
      have hpe : ¬ (k ++ '=' :: v = []) := by simp
      simp only [if_neg hpe]
      simp [parsePiece, splitFirstAt_append v hw.2.1]
    · have hnamp : '&' ∉ k ++ '=' :: v := by
        simp only [List.mem_append, List.mem_cons, not_or]
        exact ⟨hw.1, by simp, hw.2.2⟩
      have hrest : wfParams (p :: rest) := fun kv2 hkv2 => hwf kv2 (by simp [hkv2])
      have hih := ih hrest (by simp)
      have hshape : paramsToStr ((k, v) :: p :: rest) =
          (k ++ '=' :: v) ++ '&' :: paramsToStr (p :: rest) := by
        simp [paramsToStr, List.append_assoc]
      rw [hshape]
      simp only [parseQuery, splitAllAt_append _ hnamp, List.filterMap]
      have hpe : ¬ (k ++ '=' :: v = []) := by simp
      simp only [if_neg hpe]
      have : (splitAllAt '&' (paramsToStr (p :: rest))).filterMap
          (fun piece => if piece = [] then none else some (parsePiece piece)) =
          parseQuery (paramsToStr (p :: rest)) := rfl
      rw [this, hih]
      simp [parsePiece, splitFirstAt_append v hw.2.1]

/-- Round trip: serialising a URL of the model and re-parsing it is the
identity, provided the base has no `?` and the query pairs are well formed. -/
theorem parseUrl_urlToStr {base : Str} {ps : List (Str × Str)}
    (hb : '?' ∉ base) (hwf : wfParams ps) :
    parseUrl (urlToStr ⟨base, ps⟩) = ⟨base, ps⟩ := by
  rcases ps with _ | ⟨kv, rest⟩
  · simp [urlToStr, parseUrl, splitFirstAt_of_not_mem hb]
  · have hne : (kv :: rest : List (Str × Str)) ≠ [] := by simp
    have : urlToStr ⟨base, kv :: rest⟩ =
        base ++ '?' :: paramsToStr (kv :: rest) := rfl
    rw [this]
    simp only [parseUrl, splitFirstAt_append _ hb]
    rw [parseQuery_paramsToStr hwf hne]

/-! ## Characterisation of the content-hash pattern -/

theorem drop_append_of_le {n : ℕ} {a : Str} (b : Str) (h : n ≤ a.length) :
    (a ++ b).drop n = a.drop n ++ b := by
  induction a generalizing n with
  | nil =>
    have hz : n = 0 := Nat.le_zero.mp h
    subst hz
    simp
  | cons c cs ih =>
    cases n with
    | zero => simp
    | succ m =>
      simp only [List.cons_append, List.drop_succ_cons]
      exact ih (Nat.le_of_succ_le_succ h)

/-- `hashSuffix link = some h` exactly when the link decomposes as
`pre ++ "/files/" ++ h` with `h` a non-empty all-hex tail — i.e. when the
link matches the content-hash pattern `/\/files\/([a-f0-9]+)$/` with
capture `h`. -/
theorem hashSuffix_eq_some_iff (link h : Str) :
    hashSuffix link = some h ↔
      ∃ pre, link = pre ++ lit "/files/" ++ h ∧ h ≠ [] ∧ h.all isHexDigit = true := by
  constructor
  · intro hm
    induction link with
    | nil => simp [hashSuffix] at hm
    | cons c cs ih =>
      rw [hashSuffix] at hm
      split at hm
      · next hcond =>
        simp only [Bool.and_eq_true, Bool.not_eq_true'] at hcond
        obtain ⟨⟨hpre, hemp⟩, hhex⟩ := hcond
        obtain ⟨rest, hrest⟩ := (isPre_iff _ _).mp hpre
        have h7 : (lit "/files/").length = 7 := by decide
        have hRest : List.drop 7 (c :: cs) = rest := by
          rw [← hrest, ← h7, List.drop_left]
        have hh2 : List.drop 7 (c :: cs) = h := by
          injection hm
        refine ⟨[], ?_, ?_, ?_⟩
        · rw [List.nil_append, ← hrest]
          congr 1
          rw [← hh2, hRest]
        · intro hz
          have hempH : h.isEmpty = false := hh2 ▸ hemp
          rw [hz] at hempH
          simp at hempH
        · exact hh2 ▸ hhex
      · obtain ⟨pre, hp, hh⟩ := ih hm
        exact ⟨c :: pre, by simp [hp], hh⟩
  · rintro ⟨pre, rfl, hne, hhex⟩
    have h7 : (lit "/files/").length = 7 := by decide
    induction pre with
    | nil =>
      have hdrop : List.drop 7 ((lit "/files/" : Str) ++ h) = h := by
        rw [← h7, List.drop_left]
      have hemp : h.isEmpty = false := by
        cases h with
        | nil => exact absurd rfl hne
        | cons x xs => rfl
      have hlit : (lit "/files/" : Str) = '/' :: lit "files/" := by decide
      rw [List.nil_append, hlit, List.cons_append, hashSuffix,
        ← List.cons_append, ← hlit]
      have hcond : (isPre (lit "/files/") ((lit "/files/" : Str) ++ h) &&
          !(List.drop 7 ((lit "/files/" : Str) ++ h)).isEmpty &&
          (List.drop 7 ((lit "/files/" : Str) ++ h)).all isHexDigit) = true := by
        rw [isPre_refl_append, hdrop, hemp, hhex]
        rfl
      rw [if_pos hcond, hdrop]
    | cons c pre ih =>
      have hform : ((c :: pre) ++ lit "/files/" ++ h : Str) =
          c :: (pre ++ lit "/files/" ++ h) := by simp
      rw [hform, hashSuffix]
      have hlen6 : ((lit "/files") : Str).length = 6 := by decide
      have hsplit : (pre ++ lit "/files/" ++ h : Str) =
          (pre ++ lit "/files") ++ '/' :: h := by
        have hl : (lit "/files/" : Str) = lit "/files" ++ ['/'] := by decide
        simp [hl, List.append_assoc]
      have hdrop7 : List.drop 7 (c :: (pre ++ lit "/files/" ++ h)) =
          List.drop 6 (pre ++ lit "/files") ++ '/' :: h := by
        rw [hsplit]
        have hstep : (c :: ((pre ++ lit "/files") ++ '/' :: h) : Str) =
            (c :: (pre ++ lit "/files")) ++ '/' :: h := by simp
        rw [hstep, drop_append_of_le _
          (by simp only [List.length_cons, List.length_append, hlen6]; omega)]
        rfl
      have hhexf : (List.drop 7 (c :: (pre ++ lit "/files/" ++ h))).all isHexDigit
          = false := by
        rw [hdrop7]
        have hmem : ('/' : Char) ∈ List.drop 6 (pre ++ lit "/files") ++ '/' :: h := by
          simp
        by_contra hcon
        simp only [Bool.not_eq_false, List.all_eq_true] at hcon
        exact absurd (hcon '/' hmem) (by decide)
      rw [if_neg]
      · exact ih
      · intro hcon
        rw [Bool.and_eq_true, Bool.and_eq_true] at hcon
        rw [hcon.2] at hhexf
        exact absurd hhexf (by decide)

/-! ## The remote tree and the traversal state

`FileNode` mirrors the script's `interface FileNode` (README.md lines
856–861): `typ` models `type : "file" | "directory" | "lambda"`, `link` and
`children` are the optional fields.  `children = some []` is a loaded, empty
directory; `children = none` means "not yet fetched". -/

inductive NType where
  | file
  | dir
  | lam
deriving DecidableEq

structure FileNode where
  name : Str
  typ : NType
  link : Option Str
  children : Option (List FileNode)

/-- The run environment: `retryOnlyPaths` (the `Set<string> | null` of the
script), the directory-listing oracle (`getDirectoryTree`, keyed by the
relative directory path), the file-transfer oracle (`downloadFile`, keyed by
the resolved URL, returning raw bytes or a provider/transport error
message), and the closure variables `deploymentId` / `teamId` used by
`resolveFileUrl`. -/
structure Env where
  retryOnlyPaths : Option (List Str)
  tree : Str → Except Str (List FileNode)
  download : Str → Except Str (List Nat)
  deploymentId : Str
  teamId : Option Str

/-- The observable effects of a run: the on-disk files (path ↦ bytes, most
recent write first), every directory created (`mkdirSync` including the
ancestors `recursive: true` materialises), every directory-listing request
issued, the three outcome lists of the script, and the appended log
messages. -/
structure St where
  fs : List (Str × List Nat)
  dirs : List Str
  fetched : List Str
  downloadedFiles : List Str
  skippedFiles : List Str
  failedFiles : List Str
  logs : List Str
deriving DecidableEq

/-- Models `existsSync`/`statSync`: the content of the file at `p`, if any. -/
def fsLookup (fs : List (Str × List Nat)) (p : Str) : Option (List Nat) :=
  match fs with
  | [] => none
  | (q, b) :: rest => if q = p then some b else fsLookup rest p

/-- Models `writeFileSync` (truncate/overwrite). -/
def fsWrite (fs : List (Str × List Nat)) (p : Str) (b : List Nat) :
    List (Str × List Nat) :=
  (p, b) :: fs

/-- All proper directory ancestors of a path: every `d` with `d ++ "/"` a
prefix of the path. -/
def dirAncestors : Str → List Str
  | [] => []
  | c :: cs =>
    (if c = '/' then [[]] else []) ++ (dirAncestors cs).map (c :: ·)

theorem mem_dirAncestors_iff (d q : Str) :
    d ∈ dirAncestors q ↔ d ++ ['/'] <+: q := by
  induction q generalizing d with
  | nil =>
    simp only [dirAncestors, List.not_mem_nil, false_iff]
    rintro ⟨t, ht⟩
    simp at ht
  | cons c cs ih =>
    simp only [dirAncestors, List.mem_append, List.mem_map]
    constructor
    · rintro (hd | ⟨d2, hd2, rfl⟩)
      · split at hd
        · next hc =>
          rcases List.mem_singleton.mp hd with rfl
          exact ⟨cs, by rw [hc]; rfl⟩
        · simp at hd
      · obtain ⟨t, ht⟩ := (ih d2).mp hd2
        exact ⟨t, by simp [← ht]⟩
    · rintro ⟨t, ht⟩
      cases d with
      | nil =>
        left
        simp only [List.nil_append, List.cons_append] at ht
        obtain ⟨rfl, -⟩ := List.cons.injEq .. ▸ ht
        simp
      | cons d0 ds =>
        right
        simp only [List.cons_append] at ht
        obtain ⟨rfl, ht2⟩ := List.cons.injEq .. ▸ ht
        exact ⟨ds, (ih ds).mpr ⟨t, ht2⟩, rfl⟩

/-- The set of directories materialised by `mkdirSync(q, { recursive: true })`:
`q` itself plus every ancestor. -/
def mkdirRec (q : Str) : List Str :=
  q :: dirAncestors q

/-- Models `path.dirname`: everything before the last `/`. -/
def dirnameP (l : Str) : Str :=
  ((l.reverse.dropWhile (fun c => c != '/')).drop 1).reverse

theorem dirnameP_append_sep (x : Str) {y : Str} (hy : '/' ∉ y) :
    dirnameP (x ++ '/' :: y) = x := by
  have hrev : (x ++ '/' :: y).reverse = y.reverse ++ '/' :: x.reverse := by
    simp
  have hdw : (y.reverse ++ '/' :: x.reverse).dropWhile (fun c => c != '/') =
      '/' :: x.reverse := by
    have hall : ∀ c ∈ y.reverse, (fun c => c != '/') c = true := by
      intro c hc
      simp only [bne_iff_ne, ne_eq]
      intro hcc
      exact hy (by simpa [hcc] using List.mem_reverse.mp hc)
    rw [List.dropWhile_append]
    simp only [List.dropWhile_eq_nil_iff.mpr hall, List.isEmpty_nil, if_true]
    rw [List.dropWhile_cons_of_neg]
    simp
  rw [dirnameP, hrev, hdw]
  simp

/-! ## Log messages written by `processNode` (README.md lines 1592–1675) -/

def skipMsg (fullPath : Str) : Str :=
  lit "⏭️  Skipping (already exists): " ++ fullPath

def downloadedMsg (fullPath : Str) : Str :=
  lit "✅ Downloaded: " ++ fullPath

def failMsg (fullPath e : Str) : Str :=
  lit "❌ Failed to download " ++ fullPath ++ lit ": " ++ e

def unresolvableMsg (link : Str) : Str :=
  lit "❌ Could not resolve download URL from link: " ++ link

def dirFetchFailMsg (rel e : Str) : Str :=
  lit "❌ Failed to get directory tree for " ++ rel ++ lit ": " ++ e

def lambdaMsg (fullPath : Str) : Str :=
  lit "⏭️  Skipping lambda: " ++ fullPath

/-- The body of `processNode` for a file node with a (truthy) link, after the
retry-mode membership gate (README.md lines 1641–1670): resolve the URL
(an unresolvable link is logged and the function returns with **no** outcome
recorded); outside retry mode skip a non-empty existing file; otherwise
download and either record `Downloaded` (writing the bytes, materialising
the parent directory) or record `Failed` with the error message. -/
def fileAttempt (env : Env) (l fullPath : Str) (isRetry : Bool) (st : St) : St :=
  match resolveFileUrl env.deploymentId env.teamId l with
  | none => { st with logs := st.logs ++ [unresolvableMsg l] }
  | some url =>
    let cached :=
      !isRetry &&
        (match fsLookup st.fs fullPath with
         | some b => !b.isEmpty
         | none => false)
    if cached then
      { st with
        logs := st.logs ++ [skipMsg fullPath],
        skippedFiles := st.skippedFiles ++ [fullPath] }
    else
      match env.download url with
      | Except.ok bytes =>
        { st with
          dirs := st.dirs ++ mkdirRec (dirnameP fullPath),
          fs := fsWrite st.fs fullPath bytes,
          downloadedFiles := st.downloadedFiles ++ [fullPath],
          logs := st.logs ++ [downloadedMsg fullPath] }
      | Except.error e =>
        { st with
          failedFiles := st.failedFiles ++ [fullPath],
          logs := st.logs ++ [failMsg fullPath e] }

/-- The full file-node step (README.md lines 1635–1674): nothing happens for
a file without a truthy `link`; in retry mode a path outside the failed set
is skipped silently; a lambda node is only logged. -/
def fileStep (env : Env) (node : FileNode) (fullPath rel : Str) (st : St) : St :=
  match node.link with
  | none => st
  | some l =>
    if l = [] then st
    else
      match env.retryOnlyPaths with
      | some s => if rel ∈ s then fileAttempt env l fullPath true st else st
      | none => fileAttempt env l fullPath false st

/-- The depth-first traversal (README.md lines 1592–1675 plus the top-level
loop at 1779–1781), as a fuel-indexed recursion over a work list of sibling
nodes.  `basePath`/`relativePath` are the `processNode` parameters; the
result is the in-place-mutated node list (lazily fetched `children` cached
onto the nodes) together with the final state, or `none` if the fuel runs
out.  A directory node: prune in retry mode when no failed path lies below
it, otherwise `mkdirSync` it, use the cached children or fetch them (a fetch
error is logged and the subtree abandoned), and recurse. -/
def process (env : Env) : Nat → List FileNode → Str → Str → St →
    Option (List FileNode × St)
  | _, [], _, _, st => some ([], st)
  | 0, _ :: _, _, _, _ => none
  | Nat.succ fuel, node :: ns, basePath, relativePath, st =>
    let fullPath := basePath ++ '/' :: node.name
    let rel := if relativePath = [] then node.name
               else relativePath ++ '/' :: node.name
    let headStep : Option (FileNode × St) :=
      match node.typ with
      | NType.dir =>
        let pruned :=
          match env.retryOnlyPaths with
          | some s => !s.any (fun p => isPre (rel ++ ['/']) p)
          | none => false
        if pruned then some (node, st)
        else
          let st1 := { st with dirs := st.dirs ++ mkdirRec fullPath }
          match node.children with
          | some cs =>
            match process env fuel cs fullPath rel st1 with
            | some (cs2, st2) => some ({ node with children := some cs2 }, st2)
            | none => none
          | none =>
            let st2 := { st1 with fetched := st1.fetched ++ [rel] }
            match env.tree rel with
            | Except.error e =>
              some (node, { st2 with logs := st2.logs ++ [dirFetchFailMsg rel e] })
            | Except.ok cs =>
              match process env fuel cs fullPath rel st2 with
              | some (cs2, st3) => some ({ node with children := some cs2 }, st3)
              | none => none
      | NType.file => some (node, fileStep env node fullPath rel st)
      | NType.lam => some (node, { st with logs := st.logs ++ [lambdaMsg fullPath] })
    match headStep with
    | none => none
    | some (n2, st2) =>
      match process env fuel ns basePath relativePath st2 with
      | some (ns2, st3) => some (n2 :: ns2, st3)
      | none => none

/-! ## The failure-recovery parser

`parsePreviousFailures` (README.md lines 1684–1695) scans the previous run
log with the global regex `/❌ Failed to download .*\/source\/(.+?):/g` and
collects the captured groups.  The model below implements the regex engine's
semantics for this pattern: match starts are tried left to right and must
begin with the literal marker `"❌ Failed to download "`; the greedy `.*`
prefers the **latest** occurrence of `"/source/"` whose continuation
matches; the lazy `(.+?)` captures the shortest non-empty run before a `:`;
the global scan resumes after the consumed `:`.  Since `.` does not match a
newline, matching is performed per line. -/

def marker : Str := lit "❌ Failed to download "

def srcSep : Str := lit "/source/"

/-- The lazy part `(.+?):` — the shortest non-empty prefix followed by `:`;
returns the capture and the remainder after the consumed `:`. -/
def lazyCap : Str → Option (Str × Str)
  | [] => none
  | a :: rest =>
    if rest.any (fun c => c == ':') then
      some (a :: rest.takeWhile (fun c => c != ':'),
            (rest.dropWhile (fun c => c != ':')).drop 1)
    else none

/-- The `.*\/source\/(.+?):` part: the greedy `.*` selects the latest
position at which `"/source/"` occurs and the lazy continuation succeeds. -/
def srcScan : Str → Option (Str × Str)
  | [] => none
  | c :: cs =>
    match srcScan cs with
    | some r => some r
    | none =>
      if isPre srcSep (c :: cs) then lazyCap (List.drop 8 (c :: cs))
      else none

/-- The `/g` scan of one line: try successive match starts; each match must
begin with the marker literal; on success resume after the match. -/
def capsAux : Nat → Str → List Str
  | 0, _ => []
  | _ + 1, [] => []
  | fuel + 1, c :: cs =>
    if isPre marker (c :: cs) then
      match srcScan (List.drop 21 (c :: cs)) with
      | some (cap, rest) => cap :: capsAux fuel rest
      | none => capsAux fuel cs
    else capsAux fuel cs

/-- All captures of the failure pattern in one line. -/
def lineCaps (line : Str) : List Str :=
  capsAux (line.length + 1) line

/-- Split a log file's content into lines. -/
def splitLines (content : Str) : List Str :=
  splitAllAt '\n' content

/-- Model of `parsePreviousFailures`: `none` stands for a missing log file
(`existsSync` false → empty set); otherwise every capture of the
failed-download pattern in the log content.  The script stores a
`Set<string>`; the model returns the capture list, membership being the
relevant notion. -/
def parsePreviousFailures : Option Str → List Str
  | none => []
  | some content => ((splitLines content).map lineCaps).flatten

/-! ## Lemmas about the failure-recovery parser -/

theorem takeWhile_app {p : Char → Bool} {xs : Str} (h : ∀ x ∈ xs, p x = true)
    {y : Char} (t : Str) (hy : p y = false) :
    (xs ++ y :: t).takeWhile p = xs := by
  induction xs with
  | nil => simp [List.takeWhile, hy]
  | cons x xs ih =>
    have hx := h x (by simp)
    simp only [List.cons_append, List.takeWhile_cons, hx, if_true]
    rw [ih fun z hz => h z (by simp [hz])]

theorem dropWhile_app {p : Char → Bool} {xs : Str} (h : ∀ x ∈ xs, p x = true)
    {y : Char} (t : Str) (hy : p y = false) :
    (xs ++ y :: t).dropWhile p = y :: t := by
  induction xs with
  | nil => simp [List.dropWhile, hy]
  | cons x xs ih =>
    have hx := h x (by simp)
    simp only [List.cons_append, List.dropWhile_cons, hx, if_true]
    exact ih fun z hz => h z (by simp [hz])

theorem lazyCap_exact {rel : Str} (t : Str) (hne : rel ≠ []) (hc : ':' ∉ rel) :
    lazyCap (rel ++ ':' :: t) = some (rel, t) := by
  cases rel with
  | nil => exact absurd rfl hne
  | cons a rs =>
    have hrs : ∀ x ∈ rs, (fun c => c != ':') x = true := by
      intro x hx
      simp only [bne_iff_ne, ne_eq]
      intro hxx
      exact hc (by simp only [List.mem_cons]; right; rw [← hxx]; exact hx)
    have hcol : (fun c => c != ':') ':' = false := by decide
    simp only [List.cons_append, lazyCap]
    rw [if_pos]
    · rw [takeWhile_app hrs t hcol, dropWhile_app hrs t hcol]
      rfl
    · simp

theorem capsAux_no_marker {s : Str} (h : '❌' ∉ s) (fuel : Nat) :
    capsAux fuel s = [] := by
  induction fuel generalizing s with
  | zero => rfl
  | succ f ih =>
    cases s with
    | nil => rfl
    | cons c cs =>
      have hc : isPre marker (c :: cs) = false := by
        by_contra hx
        simp only [Bool.not_eq_false] at hx
        obtain ⟨t, ht⟩ := (isPre_iff _ _).mp hx
        have hdec : (marker : Str) = '❌' :: lit " Failed to download " := by decide
        rw [hdec] at ht
        simp only [List.cons_append] at ht
        obtain ⟨rfl, -⟩ := List.cons.injEq .. ▸ ht
        exact h (by simp)
      rw [capsAux, if_neg (by simp [hc])]
      exact ih fun hx => h (by simp [hx])

theorem srcScan_locate {tail : Str} {r : Str × Str} (pre : Str)
    (h1 : srcScan (lit "source/" ++ tail) = none)
    (h2 : lazyCap tail = some r) :
    srcScan (pre ++ srcSep ++ tail) = some r := by
  induction pre with
  | nil =>
    have hdec : (srcSep : Str) = '/' :: lit "source/" := by decide
    have hcons : (([] : Str) ++ srcSep ++ tail : Str) =
        '/' :: (lit "source/" ++ tail) := by
      rw [hdec]; rfl
    rw [hcons, srcScan, h1]
    have hpre : isPre srcSep ('/' :: (lit "source/" ++ tail)) = true := by
      have : ('/' :: (lit "source/" ++ tail) : Str) = srcSep ++ tail := by
        rw [hdec]; rfl
      rw [this]
      exact isPre_refl_append srcSep tail
    rw [if_pos hpre]
    have h8 : List.drop 8 ('/' :: (lit "source/" ++ tail) : Str) = tail := by
      have hl : (srcSep : Str).length = 8 := by decide
      have : ('/' :: (lit "source/" ++ tail) : Str) = srcSep ++ tail := by
        rw [hdec]; rfl
      rw [this, ← hl, List.drop_left]
    rw [h8, h2]
  | cons c pre ih =>
    have hcons : ((c :: pre : Str) ++ srcSep ++ tail : Str) =
        c :: (pre ++ srcSep ++ tail) := by simp
    rw [hcons, srcScan, ih]

theorem capsAux_marker (fuel : Nat) {body cap rest : Str}
    (h : srcScan body = some (cap, rest)) :
    capsAux (Nat.succ fuel) (marker ++ body) = cap :: capsAux fuel rest := by
  have hdec : (marker : Str) = '❌' :: lit " Failed to download " := by decide
  have hcons : (marker ++ body : Str) =
      '❌' :: (lit " Failed to download " ++ body) := by
    rw [hdec]; rfl
  rw [hcons, capsAux, ← hcons]
  rw [if_pos (isPre_refl_append marker body)]
  have h21 : List.drop 21 (marker ++ body : Str) = body := by
    have hl : (marker : Str).length = 21 := by decide
    rw [← hl, List.drop_left]
  rw [h21, h]

/-- The failure log line written for relative path `rel` under output
directory `dd ++ "/source"` parses back to exactly `[rel]`, provided `rel`
is non-empty and colon-free, the error text contains no `❌`, and no second
`"/source/"` occurrence follows the canonical one. -/
theorem lineCaps_failLine (dd rel err : Str) (hrelne : rel ≠ [])
    (hrelc : ':' ∉ rel) (herrx : '❌' ∉ err)
    (hscan : srcScan (lit "source/" ++ (rel ++ lit ": " ++ err)) = none) :
    lineCaps (failMsg (dd ++ lit "/source/" ++ rel) err) = [rel] := by
  have hdecomp : failMsg (dd ++ lit "/source/" ++ rel) err =
      marker ++ (dd ++ srcSep ++ (rel ++ lit ": " ++ err)) := by
    simp [failMsg, marker, srcSep, List.append_assoc]
  have htail : (rel ++ lit ": " ++ err : Str) = rel ++ ':' :: (' ' :: err) := by
    have : (lit ": " : Str) = [':', ' '] := by decide
    simp [this, List.append_assoc]
  have hlc : lazyCap (rel ++ lit ": " ++ err) = some (rel, ' ' :: err) := by
    rw [htail]
    exact lazyCap_exact _ hrelne hrelc
  have hsrc : srcScan (dd ++ srcSep ++ (rel ++ lit ": " ++ err)) =
      some (rel, ' ' :: err) :=
    srcScan_locate dd hscan hlc
  rw [lineCaps, hdecomp]
  have hlen : (marker ++ (dd ++ srcSep ++ (rel ++ lit ": " ++ err)) : Str).length =
      Nat.succ ((dd ++ srcSep ++ (rel ++ lit ": " ++ err) : Str).length + 20) := by
    have hl : (marker : Str).length = 21 := by decide
    simp [List.length_append, hl]
    omega
  rw [hlen]
  rw [show ∀ n : Nat, Nat.succ n + 1 = Nat.succ (Nat.succ n) from fun _ => rfl]
  rw [capsAux_marker _ hsrc]
  rw [capsAux_no_marker (by
    intro hx
    rcases List.mem_cons.mp hx with hx | hx
    · exact absurd hx.symm (by decide)
    · exact herrx hx)]

/-- Monotone membership: every capture of any line of the log content is in
the parsed failure set — later lines (for example success lines appended by
the retry pass) never remove it. -/
theorem mem_parsePreviousFailures {content line p : Str}
    (hl : line ∈ splitLines content) (hp : p ∈ lineCaps line) :
    p ∈ parsePreviousFailures (some content) := by
  simp only [parsePreviousFailures, List.mem_flatten]
  exact ⟨lineCaps line, List.mem_map_of_mem _ hl, hp⟩

/-! ## The post-traversal retry pass (README.md lines 1843–1898) -/

/-- Remove the first occurrence of `pat` from `s`
(models `s.replace(pat, "")` for a string pattern). -/
def replaceOnce (pat : Str) : Str → Str
  | [] => []
  | c :: cs =>
    if isPre pat (c :: cs) then List.drop pat.length (c :: cs)
    else c :: replaceOnce pat cs

/-- Models the `findLink` walk of the in-memory tree (README.md lines
1852–1864): depth-first search for a file node whose accumulated relative
path equals `relPath` and whose `link` is truthy.  Fuel-indexed; the cached
`children` of the traversal output keep the walk finite in practice. -/
def findLink : Nat → List FileNode → Str → Str → Option Str
  | 0, _, _, _ => none
  | _ + 1, [], _, _ => none
  | fuel + 1, n :: ns, parentRel, relPath =>
    let rel := if parentRel = [] then n.name else parentRel ++ '/' :: n.name
    let hit :=
      match n.link with
      | some l => n.typ = NType.file && rel = relPath && !l.isEmpty
      | none => false
    if hit then n.link
    else
      match n.children with
      | some cs =>
        match findLink fuel cs rel relPath with
        | some l => some l
        | none => findLink fuel ns parentRel relPath
      | none => findLink fuel ns parentRel relPath

/-- State accumulated by the retry pass: the still-failing list, the extra
downloads, the paths for which a `downloadFile` request was actually issued,
the log lines, and the filesystem. -/
structure RetryRes where
  fs : List (Str × List Nat)
  stillFailed : List Str
  downloaded : List Str
  attempts : List Str
  logs : List Str
deriving DecidableEq

/-- The retry loop body (README.md lines 1848–1888): for each previously
failed full path, recover its relative path, locate its link in the
in-memory tree, resolve and re-download; push to `stillFailed` when the
entry is missing, the URL unresolvable, or the download fails. -/
def retryPass (env : Env) (fuel : Nat) (fileTree : List FileNode)
    (outputDir : Str) : List Str → RetryRes → RetryRes
  | [], acc => acc
  | fp :: rest, acc =>
    let relPath := replaceOnce (outputDir ++ ['/']) fp
    let acc2 :=
      match findLink fuel fileTree [] relPath with
      | none =>
        { acc with
          stillFailed := acc.stillFailed ++ [fp],
          logs := acc.logs ++ [lit "   ⏭️ Could not find tree entry for: " ++ relPath] }
      | some link =>
        match resolveFileUrl env.deploymentId env.teamId link with
        | none =>
          { acc with
            stillFailed := acc.stillFailed ++ [fp],
            logs := acc.logs ++ [lit "   ❌ Could not resolve URL for: " ++ relPath] }
        | some url =>
          match env.download url with
          | Except.ok bytes =>
            { acc with
              fs := fsWrite acc.fs fp bytes,
              downloaded := acc.downloaded ++ [fp],
              attempts := acc.attempts ++ [fp],
              logs := acc.logs ++ [lit "   ✅ Downloaded: " ++ relPath] }
          | Except.error e =>
            { acc with
              stillFailed := acc.stillFailed ++ [fp],
              attempts := acc.attempts ++ [fp],
              logs := acc.logs ++
                [lit "   ❌ Still failed: " ++ relPath ++ lit ": " ++ e] }
    retryPass env fuel fileTree outputDir rest acc2

/-! ## The run-coordinator slice around the retry-only check
(README.md lines 1422–1438, 1677–1707, 1779–1781) -/

/-- Externally observable phase effects of a run. -/
inductive Eff where
  | fetchTree (url : Str)
  | mkdirE (path : Str)
deriving DecidableEq

/-- The sequence of `downloadSource` from the top-level file-tree request to
the start of the traversal: the file tree is fetched (line 1427) and the
output directory created (line 1681) **before** the previous log is parsed
and the `--retry-failed` check runs (lines 1701–1707); with the flag set and
no failures in the prior log the process exits 0 there; otherwise the
traversal runs (in retry-only mode when the flag is set), contributing its
directory creations and tree fetches. -/
def mainFlow (env : Env) (fuel : Nat) (fileTree : List FileNode)
    (deploymentUrl baseOutput : Str) (retryFailed : Bool)
    (priorLog : Option Str) (fs0 : List (Str × List Nat)) :
    List Eff × Option Nat :=
  let treeUrl := lit "https://vercel.com/api/file-tree/" ++ deploymentUrl ++
    lit "?base=src" ++
    (match env.teamId with
     | some t => lit "&teamId=" ++ t
     | none => [])
  let deployDir := baseOutput ++ '/' :: env.deploymentId
  let outputDir := deployDir ++ lit "/source"
  let pre : List Eff := Eff.fetchTree treeUrl :: (mkdirRec outputDir).map Eff.mkdirE
  let failures := parsePreviousFailures priorLog
  if retryFailed && failures.isEmpty then (pre, some 0)
  else
    let env2 := if retryFailed then { env with retryOnlyPaths := some failures }
                else env
    match process env2 fuel fileTree outputDir [] ⟨fs0, [], [], [], [], [], []⟩ with
    | some (_, s1) =>
      (pre ++ s1.dirs.map Eff.mkdirE ++ s1.fetched.map Eff.fetchTree, none)
    | none => (pre, none)

/-! ## Helper notions used by the claim theorems -/

/-- The relative path `processNode` computes for a node. -/
def relOf (relativePath : Str) (node : FileNode) : Str :=
  if relativePath = [] then node.name else relativePath ++ '/' :: node.name

/-- The file is not silently skipped by the retry-mode membership gate:
either the run is not in retry-only mode, or the path is in the failed set. -/
def retryAllows (env : Env) (rel : Str) : Prop :=
  match env.retryOnlyPaths with
  | none => True
  | some s => rel ∈ s

/-- A cache hit as the script tests it: the file exists and has size > 0. -/
def cachedHit (fs : List (Str × List Nat)) (p : Str) : Prop :=
  ∃ b, fsLookup fs p = some b ∧ b ≠ []

/-! ## Sample data used by counterexamples and witnesses -/

def st0 : St := ⟨[], [], [], [], [], [], []⟩

def errTree : Str → Except Str (List FileNode) := fun _ => Except.error (lit "err")

def errDownload : Str → Except Str (List Nat) := fun _ => Except.error (lit "boom")

def okDownload (b : List Nat) : Str → Except Str (List Nat) := fun _ => Except.ok b

/-! ## Claim C1 -/

/-- C1 (amended): a file node whose link cannot be resolved
(`resolveFileUrl` returns null) is logged with an error message and skipped:
the traversal records **no** outcome for it — the failed set, the Failed
count, the downloaded and skipped sets, the filesystem and the directory
trace are all unchanged; only the `Could not resolve` log line is appended.
Holds both outside retry mode and in retry mode when the path is in the
failed set. -/
theorem c1_unresolvable_link_logged_not_failed (env : Env) (fuel : Nat)
    (node : FileNode) (b r : Str) (st : St) (l : Str)
    (htyp : node.typ = NType.file) (hlink : node.link = some l) (hl : ¬ l = [])
    (hres : resolveFileUrl env.deploymentId env.teamId l = none)
    (hretry : retryAllows env (relOf r node)) :
    process env (Nat.succ fuel) [node] b r st =
      some ([node], { st with logs := st.logs ++ [unresolvableMsg l] }) := by
  rcases henv : env.retryOnlyPaths with _ | s
  · simp only [process, htyp, fileStep, hlink, if_neg hl, henv, fileAttempt, hres]
  · simp only [retryAllows, henv, relOf] at hretry
    simp only [process, htyp, fileStep, hlink, if_neg hl, henv]
    rw [if_pos hretry]
    simp only [fileAttempt, hres]

def c1wEnv : Env :=
  { retryOnlyPaths := none, tree := errTree, download := errDownload,
    deploymentId := lit "dpl", teamId := none }

def c1wNode : FileNode :=
  { name := lit "f.txt", typ := NType.file, link := some (lit "weird"), children := none }

theorem c1_unresolvable_link_logged_not_failed_witness :
    process c1wEnv (Nat.succ 0) [c1wNode] (lit "out/dpl/source") [] st0 =
      some ([c1wNode], { st0 with logs := st0.logs ++ [unresolvableMsg (lit "weird")] }) :=
  c1_unresolvable_link_logged_not_failed c1wEnv 0 c1wNode (lit "out/dpl/source") [] st0
    (lit "weird") rfl rfl (by decide) (by decide) (by simp [retryAllows, c1wEnv])

/-- C1 (counterexample): for the unresolvable link `"weird"` the claim says
the file is appended to the failed set and counted in the Failed
statistics; in fact the run ends with an **empty** failed set — only the
`Could not resolve` line is logged, unlike a failed fetch. -/
theorem c1_counterexample :
    ((process c1wEnv 2 [c1wNode] (lit "out/dpl/source") [] st0).map
      (fun p => p.2)).getD st0 =
      { st0 with logs := [unresolvableMsg (lit "weird")] } ∧
    ((process c1wEnv 2 [c1wNode] (lit "out/dpl/source") [] st0).map
      (fun p => p.2.failedFiles)).getD [lit "x"] = [] := by
  constructor
  · decide
  · decide

/-! ## Claim C6 -/

/-- C6 (amended): outside retry mode, a file node whose link **resolves** is
marked Skipped exactly when a file already exists at its target path with
non-zero size; when a zero-byte file sits at the path the file is not
skipped but re-attempted, ending Downloaded or Failed. (As stated the claim
is false: a file node whose link does not resolve is never marked Skipped
even when a non-empty file exists at its path — see the counterexample.) -/
theorem c6_cache_hit_boundary (env : Env) (fuel : Nat) (node : FileNode)
    (b r : Str) (st : St) (l url : Str) (t1 : List FileNode) (s1 : St)
    (henv : env.retryOnlyPaths = none)
    (htyp : node.typ = NType.file) (hlink : node.link = some l) (hl : ¬ l = [])
    (hres : resolveFileUrl env.deploymentId env.teamId l = some url)
    (hp : process env (Nat.succ fuel) [node] b r st = some (t1, s1)) :
    (s1.skippedFiles = st.skippedFiles ++ [b ++ '/' :: node.name] ↔
      cachedHit st.fs (b ++ '/' :: node.name)) ∧
    (fsLookup st.fs (b ++ '/' :: node.name) = some [] →
      s1.downloadedFiles = st.downloadedFiles ++ [b ++ '/' :: node.name] ∨
        s1.failedFiles = st.failedFiles ++ [b ++ '/' :: node.name]) := by
  have hmain : s1 = fileAttempt env l (b ++ '/' :: node.name) false st := by
    simp only [process, htyp, fileStep, hlink, if_neg hl, henv] at hp
    simp only [Option.some.injEq, Prod.mk.injEq] at hp
    exact hp.2.symm
  subst hmain
  constructor
  · by_cases hc : cachedHit st.fs (b ++ '/' :: node.name)
    · obtain ⟨bytes, hbl, hbne⟩ := hc
      have hcond : (!false && match fsLookup st.fs (b ++ '/' :: node.name) with
          | some bb => !bb.isEmpty
          | none => false) = true := by
        rw [hbl]
        cases bytes with
        | nil => exact absurd rfl hbne
        | cons x xs => rfl
      simp only [fileAttempt, hres, hcond, if_true]
      constructor
      · intro _; exact ⟨bytes, hbl, hbne⟩
      · intro _; trivial
    · have hcond : (!false && match fsLookup st.fs (b ++ '/' :: node.name) with
          | some bb => !bb.isEmpty
          | none => false) = false := by
        rcases hfl : fsLookup st.fs (b ++ '/' :: node.name) with _ | bytes
        · rfl
        · cases bytes with
          | nil => rfl
          | cons x xs => exact absurd ⟨x :: xs, hfl, by simp⟩ hc
      simp only [fileAttempt, hres, hcond, Bool.false_eq_true, if_false]
      rcases hdl : env.download url with e | bytes
      · simp only []
        constructor
        · intro hx
          exfalso
          have := congrArg List.length hx
          simp at this
        · intro hx; exact absurd hx hc
      · simp only []
        constructor
        · intro hx
          exfalso
          have := congrArg List.length hx
          simp at this
        · intro hx; exact absurd hx hc
  · intro hzero
    have hcond : (!false && match fsLookup st.fs (b ++ '/' :: node.name) with
        | some bb => !bb.isEmpty
        | none => false) = false := by
      rw [hzero]; rfl
    simp only [fileAttempt, hres, hcond, Bool.false_eq_true, if_false]
    rcases hdl : env.download url with e | bytes
    · right; rfl
    · left; rfl

def c6wEnv : Env :=
  { retryOnlyPaths := none, tree := errTree, download := okDownload [7],
    deploymentId := lit "dpl", teamId := none }

def c6wNode : FileNode :=
  { name := lit "z.txt", typ := NType.file, link := some (lit "/files/ab12"), children := none }

/-- A run state whose disk already holds a zero-byte file at the target. -/
def c6wSt : St := { st0 with fs := [(lit "o" ++ '/' :: c6wNode.name, [])] }

def c6wRes : St :=
  match process c6wEnv 2 [c6wNode] (lit "o") [] c6wSt with
  | some p => p.2
  | none => c6wSt

theorem c6_cache_hit_boundary_witness :
    (c6wRes.skippedFiles = c6wSt.skippedFiles ++ [lit "o" ++ '/' :: c6wNode.name] ↔
      cachedHit c6wSt.fs (lit "o" ++ '/' :: c6wNode.name)) ∧
    (fsLookup c6wSt.fs (lit "o" ++ '/' :: c6wNode.name) = some [] →
      c6wRes.downloadedFiles = c6wSt.downloadedFiles ++ [lit "o" ++ '/' :: c6wNode.name] ∨
        c6wRes.failedFiles = c6wSt.failedFiles ++ [lit "o" ++ '/' :: c6wNode.name]) :=
  c6_cache_hit_boundary c6wEnv 1 c6wNode (lit "o") [] c6wSt (lit "/files/ab12")
    (lit "https://vercel.com/api/v7/deployments/dpl/files/ab12") [c6wNode] c6wRes
    rfl rfl rfl (by decide) (by decide) (by rfl)

def c6xNode : FileNode :=
  { name := lit "w.txt", typ := NType.file, link := some (lit "weird"), children := none }

/-- A run state with a non-empty cached file at the target of `c6xNode`. -/
def c6xSt : St := { st0 with fs := [(lit "o" ++ '/' :: c6xNode.name, [1])] }

/-- C6 (counterexample): a non-empty file exists at the target path, yet the
node is **not** marked Skipped, because its link is unresolvable and
`resolveFileUrl` is consulted before the cache check — refuting the claimed
"if and only if". -/
theorem c6_counterexample :
    cachedHit c6xSt.fs (lit "o" ++ '/' :: c6xNode.name) ∧
    ((process c6wEnv 2 [c6xNode] (lit "o") [] c6xSt).map (fun p => p.2)).getD st0 =
      { c6xSt with logs := [unresolvableMsg (lit "weird")] } ∧
    ((process c6wEnv 2 [c6xNode] (lit "o") [] c6xSt).map
      (fun p => p.2.skippedFiles)).getD [lit "x"] = [] := by
  refine ⟨⟨[1], ?_, ?_⟩, ?_, ?_⟩
  · decide
  · decide
  · decide
  · decide

/-! ## Claim C7 -/

/-- C7: a (non-root) directory node whose children fetch fails is isolated:
the error is logged, the directory itself was created and its listing
requested, but no outcome records, no filesystem writes and no further
fetches happen for the subtree — and the traversal literally continues with
the given sibling list from that state; the failure does not propagate (the
head step yields `some`, never aborting the run). -/
theorem c7_dir_listing_failure_isolated (env : Env) (fuel : Nat)
    (node : FileNode) (ns : List FileNode) (b r : Str) (st : St) (e : Str)
    (htyp : node.typ = NType.dir) (hch : node.children = none)
    (htree : env.tree (relOf r node) = Except.error e)
    (hretry : env.retryOnlyPaths = none ∨
      ∃ s, env.retryOnlyPaths = some s ∧
        s.any (fun p => isPre (relOf r node ++ ['/']) p) = true) :
    process env (Nat.succ fuel) (node :: ns) b r st =
      (process env fuel ns b r
        { st with
          dirs := st.dirs ++ mkdirRec (b ++ '/' :: node.name),
          fetched := st.fetched ++ [relOf r node],
          logs := st.logs ++ [dirFetchFailMsg (relOf r node) e] }).map
        (fun p => (node :: p.1, p.2)) := by
  simp only [relOf] at htree
  rcases hretry with henv | ⟨s, henv, hany⟩
  · simp only [process, htyp, hch, henv, htree, relOf, Bool.false_eq_true, if_false]
    rcases hh : process env fuel ns b r _ with _ | ⟨ns2, st3⟩ <;> simp [hh]
  · simp only [relOf] at hany
    simp only [process, htyp, hch, henv, htree, hany, Bool.not_true, relOf,
      Bool.false_eq_true, if_false]
    rcases hh : process env fuel ns b r _ with _ | ⟨ns2, st3⟩ <;> simp [hh]

def c7wDir : FileNode :=
  { name := lit "d", typ := NType.dir, link := none, children := none }

def c7wSib : FileNode :=
  { name := lit "s.txt", typ := NType.file, link := some (lit "/files/aa"), children := none }

theorem c7_dir_listing_failure_isolated_witness :
    process c1wEnv (Nat.succ 1) [c7wDir, c7wSib] (lit "o") [] st0 =
      (process c1wEnv 1 [c7wSib] (lit "o") []
        { st0 with
          dirs := st0.dirs ++ mkdirRec (lit "o" ++ '/' :: c7wDir.name),
          fetched := st0.fetched ++ [relOf [] c7wDir],
          logs := st0.logs ++ [dirFetchFailMsg (relOf [] c7wDir) (lit "err")] }).map
        (fun p => (c7wDir :: p.1, p.2)) :=
  c7_dir_listing_failure_isolated c1wEnv 1 c7wDir [c7wSib] (lit "o") [] st0 (lit "err")
    rfl rfl (by rfl) (Or.inl rfl)

/-! ## Claim C5 -/

/-- C5: retry narrowing — the still-failing set produced by the retry pass
is a subset of its input (the failed set of the just-completed traversal
plus whatever was already accumulated), and a `downloadFile` request is
attempted only for paths of that input failed set, never for any other
path. -/
theorem c5_retry_narrowing (env : Env) (fuel : Nat) (fileTree : List FileNode)
    (outputDir : Str) (failed : List Str) (acc : RetryRes) :
    (∀ x ∈ (retryPass env fuel fileTree outputDir failed acc).stillFailed,
      x ∈ acc.stillFailed ∨ x ∈ failed) ∧
    (∀ x ∈ (retryPass env fuel fileTree outputDir failed acc).attempts,
      x ∈ acc.attempts ∨ x ∈ failed) := by
  induction failed generalizing acc with
  | nil =>
    constructor <;> intro x hx <;> rw [retryPass] at hx <;> exact Or.inl hx
  | cons fp rest ih =>
    have key : ∀ acc2 : RetryRes,
        (acc2.stillFailed = acc.stillFailed ∨
          acc2.stillFailed = acc.stillFailed ++ [fp]) →
        (acc2.attempts = acc.attempts ∨ acc2.attempts = acc.attempts ++ [fp]) →
        (∀ x ∈ (retryPass env fuel fileTree outputDir rest acc2).stillFailed,
          x ∈ acc.stillFailed ∨ x ∈ fp :: rest) ∧
        (∀ x ∈ (retryPass env fuel fileTree outputDir rest acc2).attempts,
          x ∈ acc.attempts ∨ x ∈ fp :: rest) := by
      intro acc2 hsf hat
      obtain ⟨ih1, ih2⟩ := ih acc2
      constructor
      · intro x hx
        rcases ih1 x hx with h | h
        · rcases hsf with he | he
          · exact Or.inl (he ▸ h)
          · rw [he] at h
            rcases List.mem_append.mp h with h | h
            · exact Or.inl h
            · exact Or.inr (by simp [List.mem_singleton.mp h])
        · exact Or.inr (List.mem_cons_of_mem _ h)
      · intro x hx
        rcases ih2 x hx with h | h
        · rcases hat with he | he
          · exact Or.inl (he ▸ h)
          · rw [he] at h
            rcases List.mem_append.mp h with h | h
            · exact Or.inl h
            · exact Or.inr (by simp [List.mem_singleton.mp h])
        · exact Or.inr (List.mem_cons_of_mem _ h)
    rw [retryPass]
    rcases hfl : findLink fuel fileTree [] (replaceOnce (outputDir ++ ['/']) fp)
      with _ | link
    · simp only [hfl]
      exact key _ (Or.inr rfl) (Or.inl rfl)
    · rcases hres : resolveFileUrl env.deploymentId env.teamId link with _ | url
      · simp only [hfl, hres]
        exact key _ (Or.inr rfl) (Or.inl rfl)
      · rcases hdl : env.download url with e | bytes
        · simp only [hfl, hres, hdl]
          exact key _ (Or.inr rfl) (Or.inr rfl)
        · simp only [hfl, hres, hdl]
          exact key _ (Or.inl rfl) (Or.inr rfl)

def c5wAcc : RetryRes := ⟨[], [], [], [], []⟩

theorem c5_retry_narrowing_witness :
    (lit "o/a.txt") ∈ c5wAcc.stillFailed ∨ (lit "o/a.txt") ∈ [lit "o/a.txt"] :=
  (c5_retry_narrowing c1wEnv 1 [] (lit "o") [lit "o/a.txt"] c5wAcc).1
    (lit "o/a.txt") (by decide)

/-! ## Claim C10 -/

/-- C10: the parsed prior-failure set contains every relative path captured
by a `Failed to download` line anywhere in the log; in particular, later
lines — such as the retry pass's `✅ Downloaded` success lines — never cause
a previously captured path to be dropped: the parser only accumulates. -/
theorem c10_parser_keeps_failed_paths (lines1 lines2 : List Str)
    (line p content : Str)
    (hl : line ∈ lines1) (hp : p ∈ lineCaps line)
    (hc : splitLines content = lines1 ++ lines2) :
    p ∈ parsePreviousFailures (some content) :=
  mem_parsePreviousFailures (hc ▸ List.mem_append_left lines2 hl) hp

def c10wFailLine : Str := failMsg (lit "out/dpl/source/dir/b.txt") (lit "boom")

def c10wContent : Str :=
  c10wFailLine ++ '\n' :: (lit "   ✅ Downloaded: dir/b.txt")

theorem c10_parser_keeps_failed_paths_witness :
    (lit "dir/b.txt") ∈ parsePreviousFailures (some c10wContent) :=
  c10_parser_keeps_failed_paths [c10wFailLine] [lit "   ✅ Downloaded: dir/b.txt"]
    c10wFailLine (lit "dir/b.txt") c10wContent (by decide) (by decide) (by decide)

/-! ## Claim C8 -/

/-- C8 (amended): with the retry-failed flag active and an empty
prior-failure set, the run terminates with exit code 0 without invoking the
traversal — but only **after** the top-level file tree has been fetched
(a network request) and the output directory created, both of which happen
before the retry check in `downloadSource`. -/
theorem c8_retry_noop_exit (env : Env) (fuel : Nat) (fileTree : List FileNode)
    (deploymentUrl baseOutput : Str) (priorLog : Option Str)
    (fs0 : List (Str × List Nat))
    (hempty : parsePreviousFailures priorLog = []) :
    mainFlow env fuel fileTree deploymentUrl baseOutput true priorLog fs0 =
      (Eff.fetchTree (lit "https://vercel.com/api/file-tree/" ++ deploymentUrl ++
          lit "?base=src" ++
          (match env.teamId with
           | some t => lit "&teamId=" ++ t
           | none => [])) ::
        (mkdirRec (baseOutput ++ '/' :: env.deploymentId ++ lit "/source")).map
          Eff.mkdirE,
       some 0) := by
  simp only [mainFlow, hempty, List.isEmpty_nil, Bool.and_true, if_true]

theorem c8_retry_noop_exit_witness :
    mainFlow c1wEnv 1 [] (lit "u") (lit "out") true none [] =
      (Eff.fetchTree (lit "https://vercel.com/api/file-tree/" ++ lit "u" ++
          lit "?base=src" ++
          (match c1wEnv.teamId with
           | some t => lit "&teamId=" ++ t
           | none => [])) ::
        (mkdirRec (lit "out" ++ '/' :: c1wEnv.deploymentId ++ lit "/source")).map
          Eff.mkdirE,
       some 0) :=
  c8_retry_noop_exit c1wEnv 1 [] (lit "u") (lit "out") none [] (by decide)

/-- C8 (counterexample): the claim says the program terminates before **any**
directory creation or network request; in fact, at the no-op retry exit the
effect trace already contains the output-directory `mkdir` and the top-level
file-tree fetch. -/
theorem c8_counterexample :
    (mainFlow c1wEnv 1 [] (lit "u") (lit "out") true none []).2 = some 0 ∧
    Eff.mkdirE (lit "out" ++ '/' :: c1wEnv.deploymentId ++ lit "/source") ∈
      (mainFlow c1wEnv 1 [] (lit "u") (lit "out") true none []).1 ∧
    Eff.fetchTree (lit "https://vercel.com/api/file-tree/u?base=src") ∈
      (mainFlow c1wEnv 1 [] (lit "u") (lit "out") true none []).1 := by
  refine ⟨?_, ?_, ?_⟩
  · decide
  · decide
  · decide

/-! ## Claim C3 -/

/-- C3 (amended): when a file node fails its download, the traversal appends
exactly the `❌ Failed to download <fullPath>: <error>` line, and — provided
the path relative to the source root is non-empty and contains no `:`, the
error text contains no `❌` or newline, and no second `"/source/"`
occurrence follows the canonical one — `parsePreviousFailures` recovers
from that line exactly the relative path.  (As stated, the claim is false
for relative paths containing `:`: the lazy capture stops at the first
colon — see the counterexample.) -/
theorem c3_failure_line_roundtrip (env : Env) (fuel : Nat) (node : FileNode)
    (b r : Str) (st : St) (l url e dd relFull : Str)
    (htyp : node.typ = NType.file) (hlink : node.link = some l) (hl : ¬ l = [])
    (hretry : retryAllows env (relOf r node))
    (hres : resolveFileUrl env.deploymentId env.teamId l = some url)
    (hnc : ¬ cachedHit st.fs (b ++ '/' :: node.name))
    (hdl : env.download url = Except.error e)
    (hfull : b ++ '/' :: node.name = dd ++ lit "/source/" ++ relFull)
    (hrelne : relFull ≠ []) (hrelc : ':' ∉ relFull) (herrx : '❌' ∉ e)
    (hnl : '\n' ∉ failMsg (b ++ '/' :: node.name) e)
    (hscan : srcScan (lit "source/" ++ (relFull ++ lit ": " ++ e)) = none) :
    process env (Nat.succ fuel) [node] b r st =
      some ([node],
        { st with
          failedFiles := st.failedFiles ++ [b ++ '/' :: node.name],
          logs := st.logs ++ [failMsg (b ++ '/' :: node.name) e] }) ∧
    parsePreviousFailures (some (failMsg (b ++ '/' :: node.name) e)) = [relFull] := by
  constructor
  · have hcond : (match fsLookup st.fs (b ++ '/' :: node.name) with
        | some bb => !bb.isEmpty
        | none => false) = false := by
      rcases hfl : fsLookup st.fs (b ++ '/' :: node.name) with _ | bytes
      · rfl
      · cases bytes with
        | nil => rfl
        | cons x xs => exact absurd ⟨x :: xs, hfl, by simp⟩ hnc
    rcases henv : env.retryOnlyPaths with _ | s
    · simp only [process, htyp, fileStep, hlink, if_neg hl, henv, fileAttempt, hres,
        Bool.not_false, Bool.true_and, hcond, Bool.false_eq_true, if_false, hdl]
    · simp only [retryAllows, henv, relOf] at hretry
      simp only [process, htyp, fileStep, hlink, if_neg hl, henv]
      rw [if_pos hretry]
      simp only [fileAttempt, hres, Bool.not_true, Bool.false_and,
        Bool.false_eq_true, if_false, hdl]
  · rw [hfull]
    have hone : splitLines (failMsg (dd ++ lit "/source/" ++ relFull) e) =
        [failMsg (dd ++ lit "/source/" ++ relFull) e] :=
      splitAllAt_of_not_mem (hfull ▸ hnl)
    simp only [parsePreviousFailures, hone, List.map, List.flatten]
    rw [lineCaps_failLine dd relFull e hrelne hrelc herrx hscan]
    simp

def c3wNode : FileNode :=
  { name := lit "b.txt", typ := NType.file, link := some (lit "/files/ab"), children := none }

theorem c3_failure_line_roundtrip_witness :
    process c1wEnv (Nat.succ 0) [c3wNode] (lit "out/dpl/source") [] st0 =
      some ([c3wNode],
        { st0 with
          failedFiles := st0.failedFiles ++ [lit "out/dpl/source" ++ '/' :: c3wNode.name],
          logs := st0.logs ++
            [failMsg (lit "out/dpl/source" ++ '/' :: c3wNode.name) (lit "boom")] }) ∧
    parsePreviousFailures
        (some (failMsg (lit "out/dpl/source" ++ '/' :: c3wNode.name) (lit "boom"))) =
      [lit "b.txt"] :=
  c3_failure_line_roundtrip c1wEnv 0 c3wNode (lit "out/dpl/source") [] st0
    (lit "/files/ab") (lit "https://vercel.com/api/v7/deployments/dpl/files/ab")
    (lit "boom") (lit "out/dpl") (lit "b.txt")
    rfl rfl (by decide) trivial (by decide)
    (by rintro ⟨bb, hb, -⟩; exact Option.noConfusion hb)
    (by rfl) (by decide) (by decide) (by decide) (by decide) (by decide) (by decide)

def c3xNode : FileNode :=
  { name := lit "a:b.txt", typ := NType.file, link := some (lit "/files/ab"), children := none }

/-- C3 (counterexample): a file named `a:b.txt` fails; the run writes the
standard failure line, but the parser recovers `"a"` — the portion before
the first colon — and the actual relative path `a:b.txt` is **not** in the
parsed set, refuting the claim's "for every relative path, including paths
whose name contains characters such as `:`". -/
theorem c3_counterexample :
    ((process c1wEnv 2 [c3xNode] (lit "out/dpl/source") [] st0).map
      (fun p => p.2.logs)).getD [] =
      [failMsg (lit "out/dpl/source/a:b.txt") (lit "boom")] ∧
    parsePreviousFailures (some (failMsg (lit "out/dpl/source/a:b.txt") (lit "boom"))) =
      [lit "a"] ∧
    (lit "a:b.txt") ∉
      parsePreviousFailures (some (failMsg (lit "out/dpl/source/a:b.txt") (lit "boom"))) := by
  refine ⟨?_, ?_, ?_⟩
  · decide
  · decide
  · decide

/-! ## Claim C9 -/

theorem isPre_append_right {p s : Str} (t : Str) (h : isPre p s = true) :
    isPre p (s ++ t) = true := by
  rw [isPre_iff] at h ⊢
  exact h.trans (List.prefix_append s t)

theorem isPre_splitFirstAt {p link : Str} (sep : Char)
    (hp : isPre p link = true) (hsep : sep ∉ p) :
    isPre p (splitFirstAt sep link).1 = true := by
  induction p generalizing link with
  | nil => simp [isPre]
  | cons a as ih =>
    cases link with
    | nil => simp [isPre] at hp
    | cons b bs =>
      simp only [isPre, Bool.and_eq_true, beq_iff_eq] at hp
      obtain ⟨rfl, hp2⟩ := hp
      simp only [List.mem_cons, not_or] at hsep
      simp only [splitFirstAt,
        if_neg (show ¬ (a = sep) from fun hx => hsep.1 hx.symm)]
      simp only [isPre, Bool.and_eq_true, beq_iff_eq]
      exact ⟨by trivial, ih hp2 hsep.2⟩

theorem addTeamIfAbsent_base (tid : Option Str) (u : UrlM) :
    (addTeamIfAbsent tid u).base = u.base := by
  rcases tid with _ | t
  · rfl
  · simp only [addTeamIfAbsent]
    split <;> rfl

theorem hasTeamParam_addTeamIfAbsent (t : Str) (u : UrlM) :
    hasTeamParam (addTeamIfAbsent (some t) u) = true := by
  simp only [addTeamIfAbsent]
  rcases hh : hasTeamParam u with _ | _
  · simp only [Bool.false_eq_true, if_false]
    simp [hasTeamParam]
  · simp only [if_true]
    exact hh

theorem addTeamIfAbsent_idem (t : Str) (u : UrlM) :
    addTeamIfAbsent (some t) (addTeamIfAbsent (some t) u) =
      addTeamIfAbsent (some t) u := by
  have h := hasTeamParam_addTeamIfAbsent t u
  generalize hX : addTeamIfAbsent (some t) u = X at h ⊢
  simp only [addTeamIfAbsent]
  rw [if_pos h]

/-- C9: the decision order of `resolveFileUrl`: (1) the content-hash branch
fires exactly on links of the form `… ++ "/files/" ++ h` with `h` a
non-empty all-hex tail, and then yields the hash-addressed deployment URL
(the scope appended as `?teamId=` when supplied); (2) otherwise a link
beginning with `"http"` or `"/"` is kept as an absolute or root-relative
URL, the `teamId` query parameter added only if not already present;
(3) otherwise the result is null; and (4) the function is idempotent on its
own branch-2 output — re-resolving an already-resolved URL returns it
unchanged, without duplicating the scope parameter — whenever the output
does not itself match the hash pattern and the scope contains no `&`. -/
theorem c9_resolver_decision_order (deploymentId : Str) (teamId : Option Str) :
    (∀ link h, hashSuffix link = some h ↔
        ∃ pre, link = pre ++ lit "/files/" ++ h ∧ h ≠ [] ∧
          h.all isHexDigit = true) ∧
    (∀ link h, hashSuffix link = some h →
        resolveFileUrl deploymentId teamId link =
          some (hashUrlStr deploymentId teamId h)) ∧
    (∀ link, hashSuffix link = none →
        (isPre (lit "http") link = true ∨ isPre (lit "/") link = true) →
        resolveFileUrl deploymentId teamId link =
          some (urlToStr (addTeamIfAbsent teamId (parseLink link))) ∧
        ((hasTeamParam (parseLink link) = true ∨ teamId = none) →
          addTeamIfAbsent teamId (parseLink link) = parseLink link) ∧
        (∀ t, teamId = some t → hasTeamParam (parseLink link) = false →
          (addTeamIfAbsent teamId (parseLink link)).params =
            (parseLink link).params ++ [(lit "teamId", t)])) ∧
    (∀ link, hashSuffix link = none → isPre (lit "http") link = false →
        isPre (lit "/") link = false →
        resolveFileUrl deploymentId teamId link = none) ∧
    (∀ link r, hashSuffix link = none →
        (isPre (lit "http") link = true ∨ isPre (lit "/") link = true) →
        resolveFileUrl deploymentId teamId link = some r →
        hashSuffix r = none →
        (∀ t, teamId = some t → '&' ∉ t) →
        resolveFileUrl deploymentId teamId r = some r) := by
  refine ⟨hashSuffix_eq_some_iff, ?_, ?_, ?_, ?_⟩
  · intro link h hm
    simp [resolveFileUrl, hm]
  · intro link hm hpre
    refine ⟨?_, ?_, ?_⟩
    · rcases hhttp : isPre (lit "http") link with _ | _
      · rcases hpre with hp | hp
        · rw [hp] at hhttp; cases hhttp
        · simp [resolveFileUrl, hm, hhttp, hp, parseLink]
      · simp [resolveFileUrl, hm, hhttp, parseLink]
    · rintro (hh | hh)
      · rcases teamId with _ | t
        · rfl
        · simp [addTeamIfAbsent, hh]
      · subst hh; rfl
    · intro t ht hh
      subst ht
      simp [addTeamIfAbsent, hh]
  · intro link hm h1 h2
    simp [resolveFileUrl, hm, h1, h2]
  · intro link r hm hpre hres hmr hamp
    have hrform : r = urlToStr (addTeamIfAbsent teamId (parseLink link)) := by
      rcases hhttp : isPre (lit "http") link with _ | _
      · rcases hpre with hp | hp
        · rw [hp] at hhttp; cases hhttp
        · simp only [resolveFileUrl, hm, hhttp, hp, Bool.false_eq_true, if_false,
            if_true, Option.some.injEq, parseLink] at hres ⊢
          exact hres.symm
      · simp only [resolveFileUrl, hm, hhttp, if_true, Option.some.injEq,
          parseLink] at hres ⊢
        exact hres.symm
    subst hrform
    have hwfu : wfParams (parseLink link).params := by
      rw [parseLink]
      split
      · exact parseUrl_params_wf link
      · exact parseUrl_params_wf link
    have hbase : '?' ∉ (parseLink link).base := by
      rw [parseLink]
      split
      · exact parseUrl_base_no_query link
      · intro hm2
        rcases List.mem_append.mp hm2 with hm2 | hm2
        · exact absurd hm2 (by decide)
        · exact parseUrl_base_no_query link hm2
    have hwfu2 : wfParams (addTeamIfAbsent teamId (parseLink link)).params := by
      rcases teamId with _ | t
      · exact hwfu
      · simp only [addTeamIfAbsent]
        split
        · exact hwfu
        · refine wfParams_append hwfu ?_
          intro kv hkv
          rcases List.mem_singleton.mp hkv with rfl
          refine ⟨?_, ?_, hamp t rfl⟩
          · show ('&' : Char) ∉ lit "teamId"
            decide
          · show ('=' : Char) ∉ lit "teamId"
            decide
    have hbase2 : '?' ∉ (addTeamIfAbsent teamId (parseLink link)).base := by
      rw [addTeamIfAbsent_base]; exact hbase
    have hparse : parseUrl (urlToStr (addTeamIfAbsent teamId (parseLink link))) =
        addTeamIfAbsent teamId (parseLink link) :=
      parseUrl_urlToStr hbase2 hwfu2
    have hbhttp : isPre (lit "http") (addTeamIfAbsent teamId (parseLink link)).base
        = true := by
      rw [addTeamIfAbsent_base, parseLink]
      split
      · next hx => exact isPre_splitFirstAt '?' hx (by decide)
      · exact isPre_append_right _ (by decide)
    have hhttpr : isPre (lit "http")
        (urlToStr (addTeamIfAbsent teamId (parseLink link))) = true := by
      rw [urlToStr]
      rcases hps : (addTeamIfAbsent teamId (parseLink link)).params with _ | ⟨kv, ps⟩
      · exact hbhttp
      · exact isPre_append_right _ hbhttp
    simp only [resolveFileUrl, hmr, hhttpr, if_true, hparse]
    rcases teamId with _ | t
    · rfl
    · rw [addTeamIfAbsent_idem t (parseLink link)]

theorem c9_resolver_decision_order_witness :
    resolveFileUrl (lit "dpl") (some (lit "team1"))
        (lit "https://vercel.com/api/v1/files/get?path=a") =
      some (urlToStr (addTeamIfAbsent (some (lit "team1"))
        (parseLink (lit "https://vercel.com/api/v1/files/get?path=a")))) :=
  ((c9_resolver_decision_order (lit "dpl") (some (lit "team1"))).2.2.1
    (lit "https://vercel.com/api/v1/files/get?path=a") (by decide)
    (Or.inl (by decide))).1

/-! ## Claim C4 -/

theorem pre_append_left {x y : Str} (l : Str) (h : x <+: y) : l ++ x <+: l ++ y := by
  obtain ⟨t, ht⟩ := h
  exact ⟨t, by rw [List.append_assoc, ht]⟩

theorem pre_cancel_left {x y : Str} (l : Str) (h : l ++ x <+: l ++ y) : x <+: y := by
  obtain ⟨t, ht⟩ := h
  rw [List.append_assoc] at ht
  exact ⟨t, List.append_cancel_left ht⟩

theorem mem_mkdirRec_cases {d q : Str} (h : d ∈ mkdirRec q) :
    d = q ∨ d ++ ['/'] <+: q := by
  rcases List.mem_cons.mp h with h | h
  · exact Or.inl h
  · exact Or.inr ((mem_dirAncestors_iff d q).mp h)

theorem dropWhile_head_false {p : Char → Bool} {l cs : Str} {c : Char}
    (h : l.dropWhile p = c :: cs) : p c = false := by
  induction l with
  | nil => simp at h
  | cons a as ih =>
    rw [List.dropWhile_cons] at h
    split at h
    · exact ih h
    · next hp =>
      obtain ⟨rfl, -⟩ := List.cons.injEq .. ▸ h
      exact Bool.of_not_eq_true hp

theorem dirnameP_decomp {l : Str} (h : '/' ∈ l) : dirnameP l ++ ['/'] <+: l := by
  rcases hdw : l.reverse.dropWhile (fun c => c != '/') with _ | ⟨d0, dm⟩
  · exfalso
    have hall := List.dropWhile_eq_nil_iff.mp hdw
    have h2 := hall '/' (List.mem_reverse.mpr h)
    simp at h2
  · have hd0 : d0 = '/' := by
      have := dropWhile_head_false hdw
      simpa using this
    subst hd0
    have hsplit : l.reverse = l.reverse.takeWhile (fun c => c != '/') ++ '/' :: dm := by
      conv_lhs => rw [← List.takeWhile_append_dropWhile (fun c => c != '/') l.reverse]
      rw [hdw]
    have hl : l = dm.reverse ++ '/' :: (l.reverse.takeWhile (fun c => c != '/')).reverse := by
      have := congrArg List.reverse hsplit
      simpa using this
    have hdp : dirnameP l = dm.reverse := by
      rw [dirnameP, hdw]
      rfl
    rw [hdp]
    exact ⟨(l.reverse.takeWhile (fun c => c != '/')).reverse, by
      rw [List.append_assoc, List.singleton_append]; exact hl.symm⟩


inductive WFNames : FileNode → Prop where
  | mk : ∀ n : FileNode, n.name ≠ [] →
      (∀ cs, n.children = some cs → ∀ c ∈ cs, WFNames c) → WFNames n

theorem WFNames.name_ne {n : FileNode} (h : WFNames n) : n.name ≠ [] := by
  cases h with
  | mk _ h1 _ => exact h1

theorem WFNames.children_wf {n : FileNode} (h : WFNames n) :
    ∀ cs, n.children = some cs → ∀ c ∈ cs, WFNames c := by
  cases h with
  | mk _ _ h2 => exact h2

def dirsOk (s : List Str) (out : Str) (old new : List Str) : Prop :=
  ∀ d ∈ new, d ∈ old ∨ ∃ p ∈ s, d ++ ['/'] <+: out ++ '/' :: p

def fetchOk (s : List Str) (old new : List Str) : Prop :=
  ∀ q ∈ new, q ∈ old ∨ ∃ p ∈ s, q ++ ['/'] <+: p

theorem dirsOk_refl (s : List Str) (out : Str) (a : List Str) : dirsOk s out a a :=
  fun d hd => Or.inl hd

theorem fetchOk_refl (s : List Str) (a : List Str) : fetchOk s a a :=
  fun q hq => Or.inl hq

theorem dirsOk_trans {s : List Str} {out : Str} {a b c : List Str}
    (h1 : dirsOk s out a b) (h2 : dirsOk s out b c) : dirsOk s out a c := by
  intro d hd
  rcases h2 d hd with h | h
  · exact h1 d h
  · exact Or.inr h

theorem fetchOk_trans {s : List Str} {a b c : List Str}
    (h1 : fetchOk s a b) (h2 : fetchOk s b c) : fetchOk s a c := by
  intro q hq
  rcases h2 q hq with h | h
  · exact h1 q h
  · exact Or.inr h

theorem dirsOk_mkdir_full {s : List Str} {out rel p : Str}
    (hmem : p ∈ s) (hpre : rel ++ ['/'] <+: p) (old : List Str) :
    dirsOk s out old (old ++ mkdirRec (out ++ '/' :: rel)) := by
  intro d hd
  rcases List.mem_append.mp hd with h | h
  · exact Or.inl h
  · right
    refine ⟨p, hmem, ?_⟩
    have hrelp : rel <+: p := (List.prefix_append rel ['/']).trans hpre
    have hcons : out ++ '/' :: rel <+: out ++ '/' :: p :=
      pre_append_left out (List.cons_prefix_cons.mpr ⟨rfl, hrelp⟩)
    rcases mem_mkdirRec_cases h with rfl | h2
    · have hre : (out ++ '/' :: rel) ++ ['/'] = out ++ '/' :: (rel ++ ['/']) := by simp
      rw [hre]
      exact pre_append_left out (List.cons_prefix_cons.mpr ⟨rfl, hpre⟩)
    · exact h2.trans hcons

theorem dirsOk_mkdir_dirname {s : List Str} {out rel : Str}
    (hmem : rel ∈ s) (old : List Str) :
    dirsOk s out old (old ++ mkdirRec (dirnameP (out ++ '/' :: rel))) := by
  intro d hd
  rcases List.mem_append.mp hd with h | h
  · exact Or.inl h
  · right
    refine ⟨rel, hmem, ?_⟩
    have hslash : '/' ∈ out ++ '/' :: rel := by simp
    have hdn := dirnameP_decomp hslash
    rcases mem_mkdirRec_cases h with rfl | h2
    · exact hdn
    · exact h2.trans ((List.prefix_append _ _).trans hdn)

theorem eqFullPath {out b r : Str} (n : FileNode)
    (hbr : (b = out ∧ r = []) ∨ (b = out ++ '/' :: r ∧ r ≠ [])) :
    b ++ '/' :: n.name =
      out ++ '/' :: (if r = [] then n.name else r ++ '/' :: n.name) := by
  rcases hbr with ⟨rfl, rfl⟩ | ⟨rfl, hne⟩
  · simp
  · rw [if_neg hne]
    simp

theorem fileAttempt_dirs_retry (env : Env) (l full : Str) (st : St) :
    ((fileAttempt env l full true st).dirs = st.dirs ∨
      (fileAttempt env l full true st).dirs = st.dirs ++ mkdirRec (dirnameP full)) ∧
    (fileAttempt env l full true st).fetched = st.fetched := by
  rw [fileAttempt]
  rcases resolveFileUrl env.deploymentId env.teamId l with _ | url
  · exact ⟨Or.inl rfl, rfl⟩
  · simp only [Bool.not_true, Bool.false_and, Bool.false_eq_true, if_false]
    rcases env.download url with e | bytes
    · exact ⟨Or.inl rfl, rfl⟩
    · exact ⟨Or.inr rfl, rfl⟩


theorem retry_prune_invariant (env : Env) (s : List Str) (out : Str)
    (henv : env.retryOnlyPaths = some s)
    (htreewf : ∀ q cs, env.tree q = Except.ok cs → ∀ c ∈ cs, WFNames c) :
    ∀ fuel : Nat, ∀ nodes : List FileNode, ∀ b r : Str, ∀ st : St,
      ∀ t2 : List FileNode, ∀ s2 : St,
      ((b = out ∧ r = []) ∨ (b = out ++ '/' :: r ∧ r ≠ [])) →
      (∀ c ∈ nodes, WFNames c) →
      process env fuel nodes b r st = some (t2, s2) →
      dirsOk s out st.dirs s2.dirs ∧ fetchOk s st.fetched s2.fetched := by
  intro fuel
  induction fuel with
  | zero =>
    intro nodes b r st t2 s2 hbr hw hp
    cases nodes with
    | nil =>
      simp only [process, Option.some.injEq, Prod.mk.injEq] at hp
      rw [← hp.2]
      exact ⟨dirsOk_refl s out st.dirs, fetchOk_refl s st.fetched⟩
    | cons n ns => simp [process] at hp
  | succ f ih =>
    intro nodes b r st t2 s2 hbr hw hp
    cases nodes with
    | nil =>
      simp only [process, Option.some.injEq, Prod.mk.injEq] at hp
      rw [← hp.2]
      exact ⟨dirsOk_refl s out st.dirs, fetchOk_refl s st.fetched⟩
    | cons n ns =>
      have hwn : WFNames n := hw n (by simp)
      have hwns : ∀ c ∈ ns, WFNames c := fun c hc => hw c (by simp [hc])
      have hrelne : (if r = [] then n.name else r ++ '/' :: n.name) ≠ [] := by
        split
        · exact hwn.name_ne
        · simp
      have hbr2 : ((b ++ '/' :: n.name = out ∧
            (if r = [] then n.name else r ++ '/' :: n.name) = []) ∨
          (b ++ '/' :: n.name =
              out ++ '/' :: (if r = [] then n.name else r ++ '/' :: n.name) ∧
            (if r = [] then n.name else r ++ '/' :: n.name) ≠ [])) :=
        Or.inr ⟨eqFullPath n hbr, hrelne⟩
      rcases htyp : n.typ with _ | _ | _
      -- file
      · simp only [process, htyp] at hp
        rcases htail : process env f ns b r (fileStep env n (b ++ '/' :: n.name)
            (if r = [] then n.name else r ++ '/' :: n.name) st) with _ | ⟨ns2, st3⟩
        · simp only [htail] at hp
          exact Option.noConfusion hp
        · simp only [htail, Option.some.injEq, Prod.mk.injEq] at hp
          obtain ⟨-, rfl⟩ := hp
          obtain ⟨ihd, ihf⟩ := ih ns b r _ _ _ hbr hwns htail
          have hstep : dirsOk s out st.dirs
              ((fileStep env n (b ++ '/' :: n.name)
                (if r = [] then n.name else r ++ '/' :: n.name) st).dirs) ∧
              (fileStep env n (b ++ '/' :: n.name)
                (if r = [] then n.name else r ++ '/' :: n.name) st).fetched =
                st.fetched := by
            rcases hlink : n.link with _ | l
            · simp only [fileStep, hlink]
              exact ⟨dirsOk_refl s out st.dirs, by trivial⟩
            · by_cases hle : l = []
              · simp only [fileStep, hlink, if_pos hle]
                exact ⟨dirsOk_refl s out st.dirs, by trivial⟩
              · simp only [fileStep, hlink, if_neg hle, henv]
                by_cases hrel : (if r = [] then n.name else r ++ '/' :: n.name) ∈ s
                · rw [if_pos hrel]
                  obtain ⟨hd, hf⟩ := fileAttempt_dirs_retry env l
                    (b ++ '/' :: n.name) st
                  refine ⟨?_, hf⟩
                  rcases hd with hd | hd
                  · rw [hd]
                    exact dirsOk_refl s out st.dirs
                  · rw [hd, eqFullPath n hbr]
                    exact dirsOk_mkdir_dirname hrel st.dirs
                · rw [if_neg hrel]
                  exact ⟨dirsOk_refl s out st.dirs, by trivial⟩
          refine ⟨dirsOk_trans hstep.1 ihd, ?_⟩
          rw [← hstep.2]
          exact ihf
      -- dir
      · simp only [process, htyp, henv] at hp
        rcases hany : s.any
            (fun p => isPre ((if r = [] then n.name else r ++ '/' :: n.name) ++ ['/']) p)
          with _ | _
        · -- pruned
          simp only [hany, Bool.not_false, eq_self_iff_true, if_true] at hp
          rcases htail : process env f ns b r st with _ | ⟨ns2, st3⟩
          · simp only [htail] at hp
            exact Option.noConfusion hp
          · simp only [htail, Option.some.injEq, Prod.mk.injEq] at hp
            obtain ⟨-, rfl⟩ := hp
            exact ih ns b r _ _ _ hbr hwns htail
        · simp only [hany, Bool.not_true, Bool.false_eq_true, if_false] at hp
          obtain ⟨p0, hp0mem, hp0pre⟩ : ∃ p ∈ s,
              ((if r = [] then n.name else r ++ '/' :: n.name) ++ ['/']) <+: p := by
            obtain ⟨p0, h1, h2⟩ := List.any_eq_true.mp hany
            exact ⟨p0, h1, (isPre_iff _ _).mp h2⟩
          have hmk : dirsOk s out st.dirs
              (st.dirs ++ mkdirRec (b ++ '/' :: n.name)) := by
            rw [eqFullPath n hbr]
            exact dirsOk_mkdir_full hp0mem hp0pre st.dirs
          rcases hch : n.children with _ | cs
          · simp only [hch] at hp
            rcases htr : env.tree (if r = [] then n.name else r ++ '/' :: n.name)
              with e | cs
            · simp only [htr] at hp
              rcases htail : process env f ns b r
                  { st with
                    dirs := st.dirs ++ mkdirRec (b ++ '/' :: n.name),
                    fetched := st.fetched ++
                      [if r = [] then n.name else r ++ '/' :: n.name],
                    logs := st.logs ++
                      [dirFetchFailMsg (if r = [] then n.name else r ++ '/' :: n.name) e] }
                with _ | ⟨ns2, st3⟩
              · simp only [htail] at hp
                exact Option.noConfusion hp
              · simp only [htail, Option.some.injEq, Prod.mk.injEq] at hp
                obtain ⟨-, rfl⟩ := hp
                obtain ⟨ihd, ihf⟩ := ih ns b r _ _ _ hbr hwns htail
                constructor
                · exact dirsOk_trans hmk ihd
                · refine fetchOk_trans ?_ ihf
                  intro q hq
                  rcases List.mem_append.mp hq with h | h
                  · exact Or.inl h
                  · right
                    rcases List.mem_singleton.mp h with rfl
                    exact ⟨p0, hp0mem, hp0pre⟩
            · simp only [htr] at hp
              rcases hrec : process env f cs (b ++ '/' :: n.name)
                  (if r = [] then n.name else r ++ '/' :: n.name)
                  { st with
                    dirs := st.dirs ++ mkdirRec (b ++ '/' :: n.name),
                    fetched := st.fetched ++
                      [if r = [] then n.name else r ++ '/' :: n.name] }
                with _ | ⟨cs2, stB⟩
              · simp only [hrec] at hp
                exact Option.noConfusion hp
              · simp only [hrec] at hp
                rcases htail : process env f ns b r stB with _ | ⟨ns2, st3⟩
                · simp only [htail] at hp
                  exact Option.noConfusion hp
                · simp only [htail, Option.some.injEq, Prod.mk.injEq] at hp
                  obtain ⟨-, rfl⟩ := hp
                  obtain ⟨ihd1, ihf1⟩ := ih cs (b ++ '/' :: n.name)
                    (if r = [] then n.name else r ++ '/' :: n.name) _ _ _ hbr2
                    (htreewf _ _ htr) hrec
                  obtain ⟨ihd2, ihf2⟩ := ih ns b r _ _ _ hbr hwns htail
                  constructor
                  · exact dirsOk_trans hmk (dirsOk_trans ihd1 ihd2)
                  · refine fetchOk_trans ?_ (fetchOk_trans ihf1 ihf2)
                    intro q hq
                    rcases List.mem_append.mp hq with h | h
                    · exact Or.inl h
                    · right
                      rcases List.mem_singleton.mp h with rfl
                      exact ⟨p0, hp0mem, hp0pre⟩
          · simp only [hch] at hp
            rcases hrec : process env f cs (b ++ '/' :: n.name)
                (if r = [] then n.name else r ++ '/' :: n.name)
                { st with dirs := st.dirs ++ mkdirRec (b ++ '/' :: n.name) }
              with _ | ⟨cs2, stB⟩
            · simp only [hrec] at hp
              exact Option.noConfusion hp
            · simp only [hrec] at hp
              rcases htail : process env f ns b r stB with _ | ⟨ns2, st3⟩
              · simp only [htail] at hp
                exact Option.noConfusion hp
              · simp only [htail, Option.some.injEq, Prod.mk.injEq] at hp
                obtain ⟨-, rfl⟩ := hp
                obtain ⟨ihd1, ihf1⟩ := ih cs (b ++ '/' :: n.name)
                  (if r = [] then n.name else r ++ '/' :: n.name) _ _ _ hbr2
                  (hwn.children_wf cs hch) hrec
                obtain ⟨ihd2, ihf2⟩ := ih ns b r _ _ _ hbr hwns htail
                exact ⟨dirsOk_trans hmk (dirsOk_trans ihd1 ihd2),
                  fetchOk_trans ihf1 ihf2⟩
      -- lambda
      · simp only [process, htyp] at hp
        rcases htail : process env f ns b r
            { st with logs := st.logs ++ [lambdaMsg (b ++ '/' :: n.name)] }
          with _ | ⟨ns2, st3⟩
        · simp only [htail] at hp
          exact Option.noConfusion hp
        · simp only [htail, Option.some.injEq, Prod.mk.injEq] at hp
          obtain ⟨-, rfl⟩ := hp
          obtain ⟨ihd, ihf⟩ := ih ns b r _ _ _ hbr hwns htail
          exact ⟨ihd, ihf⟩

theorem WFNames.leaf {n : FileNode} (h1 : n.name ≠ []) (h2 : n.children = none) :
    WFNames n :=
  WFNames.mk n h1 (fun cs hcs => by rw [h2] at hcs; exact Option.noConfusion hcs)

/-- C4: pruning correctness in RetryOnly mode — for every candidate relative
directory path `relD` such that `relD ++ "/"` is a prefix of no path in the
failure set, the traversal (started at the output root `out`) never creates
the directory `out/relD` on disk (not even as an ancestor of a deeper
`mkdir`), and never issues a tree-fetch request for `relD` or for any of its
descendants. -/
theorem c4_pruning_correctness (env : Env) (s : List Str) (fuel : Nat)
    (fileTree : List FileNode) (out relD : Str) (st : St)
    (t2 : List FileNode) (s2 : St)
    (henv : env.retryOnlyPaths = some s)
    (hw : ∀ c ∈ fileTree, WFNames c)
    (htreewf : ∀ q cs, env.tree q = Except.ok cs → ∀ c ∈ cs, WFNames c)
    (hp : process env fuel fileTree out [] st = some (t2, s2))
    (hnD : ∀ p ∈ s, ¬ ((relD ++ ['/']) <+: p)) :
    ((out ++ '/' :: relD) ∈ s2.dirs → (out ++ '/' :: relD) ∈ st.dirs) ∧
    (∀ q ∈ s2.fetched, q ∉ st.fetched →
      ¬ (q = relD ∨ (relD ++ ['/']) <+: q)) := by
  obtain ⟨hd, hf⟩ := retry_prune_invariant env s out henv htreewf fuel fileTree
    out [] st t2 s2 (Or.inl ⟨rfl, rfl⟩) hw hp
  constructor
  · intro hmem
    rcases hd _ hmem with h | ⟨p, hpmem, hppre⟩
    · exact h
    · exfalso
      have hnorm : (out ++ '/' :: relD) ++ ['/'] =
          out ++ '/' :: (relD ++ ['/']) := by simp
      rw [hnorm] at hppre
      have h2 : '/' :: (relD ++ ['/']) <+: '/' :: p := pre_cancel_left out hppre
      have h3 : relD ++ ['/'] <+: p := (List.cons_prefix_cons.mp h2).2
      exact hnD p hpmem h3
  · intro q hq hqnew
    rcases hf q hq with h | ⟨p, hpmem, hppre⟩
    · exact absurd h hqnew
    · rintro (rfl | hpre2)
      · exact hnD p hpmem hppre
      · exact hnD p hpmem (hpre2.trans ((List.prefix_append q ['/']).trans hppre))

def c4wEnv : Env :=
  { retryOnlyPaths := some [lit "dir/b.txt"],
    tree := fun _ => Except.ok [], download := errDownload,
    deploymentId := lit "dpl", teamId := none }

def c4wOther : FileNode :=
  { name := lit "other", typ := NType.dir, link := none, children := none }

def c4wDir : FileNode :=
  { name := lit "dir", typ := NType.dir, link := none, children := none }

def c4wResS : St :=
  match process c4wEnv 3 [c4wOther, c4wDir] (lit "o") [] st0 with
  | some p => p.2
  | none => st0

def c4wResT : List FileNode :=
  match process c4wEnv 3 [c4wOther, c4wDir] (lit "o") [] st0 with
  | some p => p.1
  | none => []

theorem c4_pruning_correctness_witness :
    ((lit "o" ++ '/' :: lit "other") ∈ c4wResS.dirs →
      (lit "o" ++ '/' :: lit "other") ∈ st0.dirs) ∧
    (∀ q ∈ c4wResS.fetched, q ∉ st0.fetched →
      ¬ (q = lit "other" ∨ (lit "other" ++ ['/']) <+: q)) :=
  c4_pruning_correctness c4wEnv [lit "dir/b.txt"] 3 [c4wOther, c4wDir]
    (lit "o") (lit "other") st0 c4wResT c4wResS rfl
    (by
      intro c hc
      rcases List.mem_cons.mp hc with rfl | hc
      · exact WFNames.leaf (by decide) rfl
      · rcases List.mem_singleton.mp hc with rfl
        exact WFNames.leaf (by decide) rfl)
    (by
      intro q cs h
      injection h with h2
      subst h2
      intro c hc
      exact absurd hc (List.not_mem_nil c))
    (by rfl)
    (by decide)

end VercelDL
namespace VercelDL

/-- One-step effects of the file branch: outcome lists only grow by
appending, and a non-empty file on disk stays present and non-empty
(downloads write oracle bytes, which are non-empty under `hA`). -/
theorem fileStep_effects (env : Env)
    (hA : ∀ u bs, env.download u = Except.ok bs → bs ≠ [])
    (n : FileNode) (full rel : Str) (st : St) :
    (∃ D S F, (fileStep env n full rel st).downloadedFiles = st.downloadedFiles ++ D ∧
      (fileStep env n full rel st).skippedFiles = st.skippedFiles ++ S ∧
      (fileStep env n full rel st).failedFiles = st.failedFiles ++ F) ∧
    (∀ p bs, fsLookup st.fs p = some bs →
      ∃ bs2, fsLookup (fileStep env n full rel st).fs p = some bs2 ∧
        (bs ≠ [] → bs2 ≠ [])) := by
  have hid : ∀ st' : St, st' = st →
      (∃ D S F, st'.downloadedFiles = st.downloadedFiles ++ D ∧
        st'.skippedFiles = st.skippedFiles ++ S ∧
        st'.failedFiles = st.failedFiles ++ F) ∧
      (∀ p bs, fsLookup st.fs p = some bs →
        ∃ bs2, fsLookup st'.fs p = some bs2 ∧ (bs ≠ [] → bs2 ≠ [])) := by
    rintro st' rfl
    exact ⟨⟨[], [], [], by simp, by simp, by simp⟩,
      fun p bs h => ⟨bs, h, fun hh => hh⟩⟩
  have hatt : ∀ isR : Bool, ∀ l : Str,
      (∃ D S F, (fileAttempt env l full isR st).downloadedFiles =
          st.downloadedFiles ++ D ∧
        (fileAttempt env l full isR st).skippedFiles = st.skippedFiles ++ S ∧
        (fileAttempt env l full isR st).failedFiles = st.failedFiles ++ F) ∧
      (∀ p bs, fsLookup st.fs p = some bs →
        ∃ bs2, fsLookup (fileAttempt env l full isR st).fs p = some bs2 ∧
          (bs ≠ [] → bs2 ≠ [])) := by
    intro isR l
    rw [fileAttempt]
    rcases hres : resolveFileUrl env.deploymentId env.teamId l with _ | url
    · simp only [hres]
      exact ⟨⟨[], [], [], by simp, by simp, by simp⟩,
        fun p bs h => ⟨bs, h, fun hh => hh⟩⟩
    · simp only [hres]
      rcases hcache : (!isR && match fsLookup st.fs full with
          | some b => !b.isEmpty
          | none => false) with _ | _
      · simp only [hcache, Bool.false_eq_true, if_false]
        rcases hdl : env.download url with e | bytes
        · simp only [hdl]
          exact ⟨⟨[], [], [full], by simp, by simp, by simp⟩,
            fun p bs h => ⟨bs, h, fun hh => hh⟩⟩
        · simp only [hdl]
          refine ⟨⟨[full], [], [], by simp, by simp, by simp⟩, ?_⟩
          intro p bs h
          by_cases hpq : full = p
          · subst hpq
            exact ⟨bytes, by simp [fsWrite, fsLookup], fun _ => hA url bytes hdl⟩
          · exact ⟨bs, by simp [fsWrite, fsLookup, hpq, h], fun hh => hh⟩
      · simp only [hcache, if_true]
        exact ⟨⟨[], [full], [], by simp, by simp, by simp⟩,
          fun p bs h => ⟨bs, h, fun hh => hh⟩⟩
  rcases hlink : n.link with _ | l
  · simp only [fileStep, hlink]
    exact hid _ rfl
  · by_cases hle : l = []
    · simp only [fileStep, hlink, if_pos hle]
      exact hid _ rfl
    · simp only [fileStep, hlink, if_neg hle]
      rcases henv : env.retryOnlyPaths with _ | s
      · simp only [henv]
        exact hatt false l
      · simp only [henv]
        by_cases hrel : rel ∈ s
        · rw [if_pos hrel]
          exact hatt true l
        · rw [if_neg hrel]
          exact hid _ rfl

end VercelDL

namespace VercelDL

/-- Outcome lists only grow by appending during a run. -/
def grows (st s2 : St) : Prop :=
  ∃ D S F, s2.downloadedFiles = st.downloadedFiles ++ D ∧
    s2.skippedFiles = st.skippedFiles ++ S ∧
    s2.failedFiles = st.failedFiles ++ F

/-- Files present on disk stay present, and non-empty ones stay non-empty. -/
def persists (st s2 : St) : Prop :=
  ∀ p bs, fsLookup st.fs p = some bs →
    ∃ bs2, fsLookup s2.fs p = some bs2 ∧ (bs ≠ [] → bs2 ≠ [])

theorem grows_refl (st : St) : grows st st :=
  ⟨[], [], [], by simp, by simp, by simp⟩

theorem grows_trans {a b c : St} (h1 : grows a b) (h2 : grows b c) : grows a c := by
  obtain ⟨D1, S1, F1, hd1, hs1, hf1⟩ := h1
  obtain ⟨D2, S2, F2, hd2, hs2, hf2⟩ := h2
  exact ⟨D1 ++ D2, S1 ++ S2, F1 ++ F2,
    by rw [hd2, hd1, List.append_assoc],
    by rw [hs2, hs1, List.append_assoc],
    by rw [hf2, hf1, List.append_assoc]⟩

theorem persists_refl (st : St) : persists st st :=
  fun p bs h => ⟨bs, h, fun hh => hh⟩

theorem persists_trans {a b c : St} (h1 : persists a b) (h2 : persists b c) :
    persists a c := by
  intro p bs h
  obtain ⟨bs2, h2a, h2b⟩ := h1 p bs h
  obtain ⟨bs3, h3a, h3b⟩ := h2 p bs2 h2a
  exact ⟨bs3, h3a, fun hh => h3b (h2b hh)⟩

theorem process_effects (env : Env)
    (hA : ∀ u bs, env.download u = Except.ok bs → bs ≠ []) :
    ∀ fuel : Nat, ∀ nodes : List FileNode, ∀ b r : Str, ∀ st : St,
      ∀ t2 : List FileNode, ∀ s2 : St,
      process env fuel nodes b r st = some (t2, s2) →
      grows st s2 ∧ persists st s2 := by
  intro fuel
  induction fuel with
  | zero =>
    intro nodes b r st t2 s2 hp
    cases nodes with
    | nil =>
      simp only [process, Option.some.injEq, Prod.mk.injEq] at hp
      rw [← hp.2]
      exact ⟨grows_refl st, persists_refl st⟩
    | cons n ns => simp [process] at hp
  | succ f ih =>
    intro nodes b r st t2 s2 hp
    cases nodes with
    | nil =>
      simp only [process, Option.some.injEq, Prod.mk.injEq] at hp
      rw [← hp.2]
      exact ⟨grows_refl st, persists_refl st⟩
    | cons n ns =>
      rcases htyp : n.typ with _ | _ | _
      -- file
      · simp only [process, htyp] at hp
        rcases htail : process env f ns b r (fileStep env n (b ++ '/' :: n.name)
            (if r = [] then n.name else r ++ '/' :: n.name) st) with _ | ⟨ns2, st3⟩
        · simp only [htail] at hp
          exact Option.noConfusion hp
        · simp only [htail, Option.some.injEq, Prod.mk.injEq] at hp
          obtain ⟨-, rfl⟩ := hp
          obtain ⟨ihg, ihp⟩ := ih ns b r _ _ _ htail
          obtain ⟨hg1, hp1⟩ := fileStep_effects env hA n (b ++ '/' :: n.name)
            (if r = [] then n.name else r ++ '/' :: n.name) st
          exact ⟨grows_trans hg1 ihg, persists_trans hp1 ihp⟩
      -- dir
      · simp only [process, htyp] at hp
        rcases hpr : (match env.retryOnlyPaths with
            | some s => !s.any
                (fun p => isPre ((if r = [] then n.name else r ++ '/' :: n.name) ++ ['/']) p)
            | none => false) with _ | _
        · simp only [hpr, Bool.false_eq_true, if_false] at hp
          rcases hch : n.children with _ | cs
          · simp only [hch] at hp
            rcases htr : env.tree (if r = [] then n.name else r ++ '/' :: n.name)
              with e | cs
            · simp only [htr] at hp
              rcases htail : process env f ns b r
                  { st with
                    dirs := st.dirs ++ mkdirRec (b ++ '/' :: n.name),
                    fetched := st.fetched ++
                      [if r = [] then n.name else r ++ '/' :: n.name],
                    logs := st.logs ++
                      [dirFetchFailMsg (if r = [] then n.name else r ++ '/' :: n.name) e] }
                with _ | ⟨ns2, st3⟩
              · simp only [htail] at hp
                exact Option.noConfusion hp
              · simp only [htail, Option.some.injEq, Prod.mk.injEq] at hp
                obtain ⟨-, rfl⟩ := hp
                obtain ⟨ihg, ihp⟩ := ih ns b r _ _ _ htail
                refine ⟨grows_trans ⟨[], [], [], by simp, by simp, by simp⟩ ihg,
                  persists_trans (fun p bs h => ⟨bs, h, fun hh => hh⟩) ihp⟩
            · simp only [htr] at hp
              rcases hrec : process env f cs (b ++ '/' :: n.name)
                  (if r = [] then n.name else r ++ '/' :: n.name)
                  { st with
                    dirs := st.dirs ++ mkdirRec (b ++ '/' :: n.name),
                    fetched := st.fetched ++
                      [if r = [] then n.name else r ++ '/' :: n.name] }
                with _ | ⟨cs2, stB⟩
              · simp only [hrec] at hp
                exact Option.noConfusion hp
              · simp only [hrec] at hp
                rcases htail : process env f ns b r stB with _ | ⟨ns2, st3⟩
                · simp only [htail] at hp
                  exact Option.noConfusion hp
                · simp only [htail, Option.some.injEq, Prod.mk.injEq] at hp
                  obtain ⟨-, rfl⟩ := hp
                  obtain ⟨ihg1, ihp1⟩ := ih cs _ _ _ _ _ hrec
                  obtain ⟨ihg2, ihp2⟩ := ih ns b r _ _ _ htail
                  refine ⟨grows_trans (grows_trans
                      ⟨[], [], [], by simp, by simp, by simp⟩ ihg1) ihg2,
                    persists_trans (persists_trans
                      (fun p bs h => ⟨bs, h, fun hh => hh⟩) ihp1) ihp2⟩
          · simp only [hch] at hp
            rcases hrec : process env f cs (b ++ '/' :: n.name)
                (if r = [] then n.name else r ++ '/' :: n.name)
                { st with dirs := st.dirs ++ mkdirRec (b ++ '/' :: n.name) }
              with _ | ⟨cs2, stB⟩
            · simp only [hrec] at hp
              exact Option.noConfusion hp
            · simp only [hrec] at hp
              rcases htail : process env f ns b r stB with _ | ⟨ns2, st3⟩
              · simp only [htail] at hp
                exact Option.noConfusion hp
              · simp only [htail, Option.some.injEq, Prod.mk.injEq] at hp
                obtain ⟨-, rfl⟩ := hp
                obtain ⟨ihg1, ihp1⟩ := ih cs _ _ _ _ _ hrec
                obtain ⟨ihg2, ihp2⟩ := ih ns b r _ _ _ htail
                refine ⟨grows_trans (grows_trans
                    ⟨[], [], [], by simp, by simp, by simp⟩ ihg1) ihg2,
                  persists_trans (persists_trans
                    (fun p bs h => ⟨bs, h, fun hh => hh⟩) ihp1) ihp2⟩
        · simp only [hpr, if_true] at hp
          rcases htail : process env f ns b r st with _ | ⟨ns2, st3⟩
          · simp only [htail] at hp
            exact Option.noConfusion hp
          · simp only [htail, Option.some.injEq, Prod.mk.injEq] at hp
            obtain ⟨-, rfl⟩ := hp
            exact ih ns b r _ _ _ htail
      -- lambda
      · simp only [process, htyp] at hp
        rcases htail : process env f ns b r
            { st with logs := st.logs ++ [lambdaMsg (b ++ '/' :: n.name)] }
          with _ | ⟨ns2, st3⟩
        · simp only [htail] at hp
          exact Option.noConfusion hp
        · simp only [htail, Option.some.injEq, Prod.mk.injEq] at hp
          obtain ⟨-, rfl⟩ := hp
          obtain ⟨ihg, ihp⟩ := ih ns b r _ _ _ htail
          exact ⟨grows_trans ⟨[], [], [], by simp, by simp, by simp⟩ ihg,
            persists_trans (fun p bs h => ⟨bs, h, fun hh => hh⟩) ihp⟩

end VercelDL

namespace VercelDL

theorem append_self_nil {α : Type} {a x y : List α} (h : a = (a ++ x) ++ y) :
    x = [] ∧ y = [] := by
  have hl := congrArg List.length h
  simp only [List.length_append] at hl
  constructor <;> rw [← List.length_eq_zero] <;> omega

theorem perm_skip_shift (f : Str) {x d ss : List Str} (h : x.Perm (d ++ ss)) :
    (f :: x).Perm (d ++ f :: ss) :=
  (h.cons f).trans List.perm_middle.symm

theorem perm_four {x y a b c d : List Str}
    (hx : x.Perm (a ++ b)) (hy : y.Perm (c ++ d)) :
    (x ++ y).Perm ((a ++ c) ++ (b ++ d)) := by
  refine (hx.append hy).trans ?_
  have h1 : (b ++ (c ++ d) : List Str).Perm (c ++ (b ++ d)) := by
    have h2 : (b ++ c : List Str).Perm (c ++ b) := List.perm_append_comm
    have h3 := h2.append_right d
    rw [List.append_assoc, List.append_assoc] at h3
    exact h3
  rw [List.append_assoc a b (c ++ d), List.append_assoc a c (b ++ d)]
  exact h1.append_left a

end VercelDL

namespace VercelDL

theorem fileStep_sim (env : Env) (henv : env.retryOnlyPaths = none)
    (hA : ∀ u bs, env.download u = Except.ok bs → bs ≠ [])
    (n : FileNode) (full rel : Str) (st1 st2 : St)
    (hfail : (fileStep env n full rel st1).failedFiles = st1.failedFiles)
    (hF : ∀ p bs, fsLookup (fileStep env n full rel st1).fs p = some bs →
      ∃ bs2, fsLookup st2.fs p = some bs2 ∧ (bs ≠ [] → bs2 ≠ [])) :
    (fileStep env n full rel st2).fs = st2.fs ∧
    (fileStep env n full rel st2).downloadedFiles = st2.downloadedFiles ∧
    (fileStep env n full rel st2).failedFiles = st2.failedFiles ∧
    ∃ D S S2,
      (fileStep env n full rel st1).downloadedFiles = st1.downloadedFiles ++ D ∧
      (fileStep env n full rel st1).skippedFiles = st1.skippedFiles ++ S ∧
      (fileStep env n full rel st2).skippedFiles = st2.skippedFiles ++ S2 ∧
      S2.Perm (D ++ S) := by
  rcases hlink : n.link with _ | l
  · simp only [fileStep, hlink]
    exact ⟨by trivial, by trivial, by trivial, [], [], [], by simp, by simp, by simp, List.Perm.refl _⟩
  · by_cases hle : l = []
    · simp only [fileStep, hlink, if_pos hle]
      exact ⟨by trivial, by trivial, by trivial, [], [], [], by simp, by simp, by simp, List.Perm.refl _⟩
    · simp only [fileStep, hlink, if_neg hle, henv, fileAttempt] at hfail hF ⊢
      rcases hres : resolveFileUrl env.deploymentId env.teamId l with _ | url
      · simp only [hres] at hfail hF ⊢
        refine ⟨by simp, by simp, by simp, [], [], [], by simp, by simp, by simp,
          List.Perm.refl _⟩
      · simp only [hres, Bool.not_false, Bool.true_and] at hfail hF ⊢
        rcases hc1 : (match fsLookup st1.fs full with
            | some b => !b.isEmpty
            | none => false) with _ | _
        · -- run 1 not cached: it downloaded (a failure would contradict hfail)
          simp only [hc1, Bool.false_eq_true, if_false] at hfail hF ⊢
          rcases hdl : env.download url with e | bytes
          · rw [hdl] at hfail
            simp only [St.mk.injEq] at hfail
            have hlen := congrArg List.length hfail
            simp at hlen
          · simp only [hdl] at hF ⊢
            have hbne := hA url bytes hdl
            obtain ⟨bytes2, hlk2, himp⟩ := hF full bytes (by simp [fsWrite, fsLookup])
            have hb2 := himp hbne
            have hc2 : (match fsLookup st2.fs full with
                | some b => !b.isEmpty
                | none => false) = true := by
              rcases hby2 : bytes2 with _ | ⟨x, xs⟩
              · exact absurd hby2 hb2
              · rw [hlk2, hby2]
                rfl
            simp only [hc2, if_true]
            refine ⟨by simp, by simp, by simp, [full], [], [full],
              by simp, by simp, by simp, by simp⟩
        · -- run 1 cached: the file was on disk non-empty, still is for run 2
          simp only [hc1, if_true] at hfail hF ⊢
          rcases hfl1 : fsLookup st1.fs full with _ | bytes
          · rw [hfl1] at hc1
            exact Bool.noConfusion hc1
          · rw [hfl1] at hc1
            have hbne : bytes ≠ [] := by
              intro hb
              rw [hb] at hc1
              simp at hc1
            obtain ⟨bytes2, hlk2, himp⟩ := hF full bytes (by simp [hfl1])
            have hb2 := himp hbne
            have hc2 : (match fsLookup st2.fs full with
                | some b => !b.isEmpty
                | none => false) = true := by
              rcases hby2 : bytes2 with _ | ⟨x, xs⟩
              · exact absurd hby2 hb2
              · rw [hlk2, hby2]
                rfl
            simp only [hc2, if_true]
            refine ⟨by simp, by simp, by simp, [], [full], [full],
              by simp, by simp, by simp, List.Perm.refl _⟩

end VercelDL

namespace VercelDL

theorem rerun_sim (env : Env) (henv : env.retryOnlyPaths = none)
    (hA : ∀ u bs, env.download u = Except.ok bs → bs ≠ []) :
    ∀ fuel1 : Nat, ∀ nodes : List FileNode, ∀ b r : Str, ∀ st1 : St,
      ∀ t1 : List FileNode, ∀ s1 : St,
      process env fuel1 nodes b r st1 = some (t1, s1) →
      s1.failedFiles = st1.failedFiles →
      ∀ fuel2 : Nat, ∀ st2 : St, ∀ t2 : List FileNode, ∀ s2 : St,
      (∀ p bs, fsLookup s1.fs p = some bs →
        ∃ bs2, fsLookup st2.fs p = some bs2 ∧ (bs ≠ [] → bs2 ≠ [])) →
      process env fuel2 nodes b r st2 = some (t2, s2) →
      s2.fs = st2.fs ∧
      s2.downloadedFiles = st2.downloadedFiles ∧
      s2.failedFiles = st2.failedFiles ∧
      ∃ D S S2,
        s1.downloadedFiles = st1.downloadedFiles ++ D ∧
        s1.skippedFiles = st1.skippedFiles ++ S ∧
        s2.skippedFiles = st2.skippedFiles ++ S2 ∧ S2.Perm (D ++ S) := by
  intro fuel1
  induction fuel1 with
  | zero =>
    intro nodes b r st1 t1 s1 hp hfail fuel2 st2 t2 s2 hF hp2
    cases nodes with
    | nil =>
      simp only [process, Option.some.injEq, Prod.mk.injEq] at hp
      obtain ⟨rfl, rfl⟩ := hp
      simp only [process, Option.some.injEq, Prod.mk.injEq] at hp2
      obtain ⟨rfl, rfl⟩ := hp2
      exact ⟨rfl, rfl, rfl, [], [], [], by simp, by simp, by simp,
        List.Perm.refl _⟩
    | cons n ns => simp [process] at hp
  | succ f ih =>
    intro nodes b r st1 t1 s1 hp hfail fuel2 st2 t2 s2 hF hp2
    cases nodes with
    | nil =>
      simp only [process, Option.some.injEq, Prod.mk.injEq] at hp
      obtain ⟨rfl, rfl⟩ := hp
      simp only [process, Option.some.injEq, Prod.mk.injEq] at hp2
      obtain ⟨rfl, rfl⟩ := hp2
      exact ⟨rfl, rfl, rfl, [], [], [], by simp, by simp, by simp,
        List.Perm.refl _⟩
    | cons n ns =>
      rcases htyp : n.typ with _ | _ | _
      -- file node
      · simp only [process, htyp] at hp
        rcases htail : process env f ns b r (fileStep env n (b ++ '/' :: n.name)
            (if r = [] then n.name else r ++ '/' :: n.name) st1) with _ | ⟨ns1, s1f⟩
        · simp only [htail] at hp
          exact Option.noConfusion hp
        · simp only [htail, Option.some.injEq, Prod.mk.injEq] at hp
          obtain ⟨rfl, rfl⟩ := hp
          obtain ⟨⟨D2, S2x, F2, hd2, hs2, hf2⟩, hper2⟩ :=
            process_effects env hA f ns b r _ _ _ htail
          obtain ⟨⟨D1, S1, F1, hd1, hs1, hf1⟩, hper1⟩ :=
            fileStep_effects env hA n (b ++ '/' :: n.name)
              (if r = [] then n.name else r ++ '/' :: n.name) st1
          obtain ⟨hF1, hF2⟩ := append_self_nil
            (hfail.symm.trans
              (show s1f.failedFiles = (st1.failedFiles ++ F1) ++ F2 by
                rw [hf2, hf1]))
          have hfail1 : (fileStep env n (b ++ '/' :: n.name)
              (if r = [] then n.name else r ++ '/' :: n.name) st1).failedFiles =
              st1.failedFiles := by
            rw [hf1, hF1, List.append_nil]
          have hfailT : s1f.failedFiles = (fileStep env n (b ++ '/' :: n.name)
              (if r = [] then n.name else r ++ '/' :: n.name) st1).failedFiles := by
            rw [hf2, hF2, List.append_nil]
          have hFmid : ∀ p bs, fsLookup (fileStep env n (b ++ '/' :: n.name)
              (if r = [] then n.name else r ++ '/' :: n.name) st1).fs p = some bs →
              ∃ bs2, fsLookup st2.fs p = some bs2 ∧ (bs ≠ [] → bs2 ≠ []) := by
            intro p bs h
            obtain ⟨bp, h1, h2⟩ := hper2 p bs h
            obtain ⟨bs2, h3, h4⟩ := hF p bp h1
            exact ⟨bs2, h3, fun hh => h4 (h2 hh)⟩
          obtain ⟨hsfs, hsd, hsf, DD, SS, SS2, hsd1, hss1, hss2, hsperm⟩ :=
            fileStep_sim env henv hA n (b ++ '/' :: n.name)
              (if r = [] then n.name else r ++ '/' :: n.name) st1 st2 hfail1 hFmid
          rcases fuel2 with _ | f2
          · simp [process] at hp2
          · simp only [process, htyp] at hp2
            rcases htail2 : process env f2 ns b r (fileStep env n (b ++ '/' :: n.name)
                (if r = [] then n.name else r ++ '/' :: n.name) st2) with _ | ⟨ns2, s2f⟩
            · simp only [htail2] at hp2
              exact Option.noConfusion hp2
            · simp only [htail2, Option.some.injEq, Prod.mk.injEq] at hp2
              obtain ⟨rfl, rfl⟩ := hp2
              have hFt : ∀ p bs, fsLookup s1f.fs p = some bs →
                  ∃ bs2, fsLookup (fileStep env n (b ++ '/' :: n.name)
                    (if r = [] then n.name else r ++ '/' :: n.name) st2).fs p =
                      some bs2 ∧ (bs ≠ [] → bs2 ≠ []) := by
                intro p bs h
                obtain ⟨bs2, h1, h2⟩ := hF p bs h
                refine ⟨bs2, ?_, h2⟩
                rw [hsfs]
                exact h1
              obtain ⟨hT2, hT3, hT4, Dt, Stl, S2t, htd, hts, hts2, htperm⟩ :=
                ih ns b r _ _ _ htail hfailT f2 _ _ _ hFt htail2
              refine ⟨?_, ?_, ?_, DD ++ Dt, SS ++ Stl, SS2 ++ S2t,
                ?_, ?_, ?_, perm_four hsperm htperm⟩
              · rw [hT2, hsfs]
              · rw [hT3, hsd]
              · rw [hT4, hsf]
              · rw [htd, hsd1, List.append_assoc]
              · rw [hts, hss1, List.append_assoc]
              · rw [hts2, hss2, List.append_assoc]
      -- directory node
      · simp only [process, htyp, henv, Bool.false_eq_true, if_false] at hp
        rcases hch : n.children with _ | cs
        · simp only [hch] at hp
          rcases htr : env.tree (if r = [] then n.name else r ++ '/' :: n.name)
            with e | cs
          · -- listing fetch fails in both runs; no outcome change
            simp only [htr] at hp
            rcases htail : process env f ns b r
                { st1 with
                  dirs := st1.dirs ++ mkdirRec (b ++ '/' :: n.name),
                  fetched := st1.fetched ++
                    [if r = [] then n.name else r ++ '/' :: n.name],
                  logs := st1.logs ++
                    [dirFetchFailMsg (if r = [] then n.name else r ++ '/' :: n.name) e] }
              with _ | ⟨ns1, s1f⟩
            · simp only [htail] at hp
              exact Option.noConfusion hp
            · simp only [htail, Option.some.injEq, Prod.mk.injEq] at hp
              obtain ⟨rfl, rfl⟩ := hp
              rcases fuel2 with _ | f2
              · simp [process] at hp2
              · simp only [process, htyp, henv, Bool.false_eq_true, if_false,
                  hch, htr] at hp2
                rcases htail2 : process env f2 ns b r
                    { st2 with
                      dirs := st2.dirs ++ mkdirRec (b ++ '/' :: n.name),
                      fetched := st2.fetched ++
                        [if r = [] then n.name else r ++ '/' :: n.name],
                      logs := st2.logs ++
                        [dirFetchFailMsg
                          (if r = [] then n.name else r ++ '/' :: n.name) e] }
                  with _ | ⟨ns2, s2f⟩
                · simp only [htail2] at hp2
                  exact Option.noConfusion hp2
                · simp only [htail2, Option.some.injEq, Prod.mk.injEq] at hp2
                  obtain ⟨rfl, rfl⟩ := hp2
                  obtain ⟨hT2, hT3, hT4, Dt, Stl, S2t, htd, hts, hts2, htperm⟩ :=
                    ih ns b r _ _ _ htail hfail f2
                      { st2 with
                        dirs := st2.dirs ++ mkdirRec (b ++ '/' :: n.name),
                        fetched := st2.fetched ++
                          [if r = [] then n.name else r ++ '/' :: n.name],
                        logs := st2.logs ++
                          [dirFetchFailMsg
                            (if r = [] then n.name else r ++ '/' :: n.name) e] }
                      _ _ hF htail2
                  exact ⟨hT2, hT3, hT4, Dt, Stl, S2t, htd, hts, hts2, htperm⟩
          · -- listing fetched from the unchanged remote in both runs
            simp only [htr] at hp
            rcases hrec : process env f cs (b ++ '/' :: n.name)
                (if r = [] then n.name else r ++ '/' :: n.name)
                { st1 with
                  dirs := st1.dirs ++ mkdirRec (b ++ '/' :: n.name),
                  fetched := st1.fetched ++
                    [if r = [] then n.name else r ++ '/' :: n.name] }
              with _ | ⟨cs1, sB⟩
            · simp only [hrec] at hp
              exact Option.noConfusion hp
            · simp only [hrec] at hp
              rcases htail : process env f ns b r sB with _ | ⟨ns1, s1f⟩
              · simp only [htail] at hp
                exact Option.noConfusion hp
              · simp only [htail, Option.some.injEq, Prod.mk.injEq] at hp
                obtain ⟨rfl, rfl⟩ := hp
                obtain ⟨⟨Dr, Sr, Fr, hrd, hrs, hrf⟩, hrp⟩ :=
                  process_effects env hA f cs _ _ _ _ _ hrec
                obtain ⟨⟨Dt0, St0, Ft0, htd0, hts0, htf0⟩, htp0⟩ :=
                  process_effects env hA f ns _ _ _ _ _ htail
                obtain ⟨hFr, hFt0⟩ := append_self_nil
                  (hfail.symm.trans
                    (show s1f.failedFiles = (st1.failedFiles ++ Fr) ++ Ft0 by
                      rw [htf0, hrf]))
                have hfailrec : sB.failedFiles = st1.failedFiles := by
                  rw [hrf, hFr, List.append_nil]
                have hfailtail : s1f.failedFiles = sB.failedFiles := by
                  rw [htf0, hFt0, List.append_nil]
                rcases fuel2 with _ | f2
                · simp [process] at hp2
                · simp only [process, htyp, henv, Bool.false_eq_true, if_false,
                    hch, htr] at hp2
                  rcases hrec2 : process env f2 cs (b ++ '/' :: n.name)
                      (if r = [] then n.name else r ++ '/' :: n.name)
                      { st2 with
                        dirs := st2.dirs ++ mkdirRec (b ++ '/' :: n.name),
                        fetched := st2.fetched ++
                          [if r = [] then n.name else r ++ '/' :: n.name] }
                    with _ | ⟨cs2, sB2⟩
                  · simp only [hrec2] at hp2
                    exact Option.noConfusion hp2
                  · simp only [hrec2] at hp2
                    rcases htail2 : process env f2 ns b r sB2 with _ | ⟨ns2, s2f⟩
                    · simp only [htail2] at hp2
                      exact Option.noConfusion hp2
                    · simp only [htail2, Option.some.injEq, Prod.mk.injEq] at hp2
                      obtain ⟨rfl, rfl⟩ := hp2
                      have hFseg : ∀ p bs, fsLookup sB.fs p = some bs →
                          ∃ bs2, fsLookup st2.fs p = some bs2 ∧
                            (bs ≠ [] → bs2 ≠ []) := by
                        intro p bs h
                        obtain ⟨bp, h1, h2⟩ := htp0 p bs h
                        obtain ⟨bs2, h3, h4⟩ := hF p bp h1
                        exact ⟨bs2, h3, fun hh => h4 (h2 hh)⟩
                      obtain ⟨hS2, hS3, hS4, Ds, Ss, S2s, hsd, hss, hss2, hsperm⟩ :=
                        ih cs (b ++ '/' :: n.name)
                          (if r = [] then n.name else r ++ '/' :: n.name)
                          _ _ _ hrec hfailrec f2
                          { st2 with
                            dirs := st2.dirs ++ mkdirRec (b ++ '/' :: n.name),
                            fetched := st2.fetched ++
                              [if r = [] then n.name else r ++ '/' :: n.name] }
                          _ _ hFseg hrec2
                      have hFt : ∀ p bs, fsLookup s1f.fs p = some bs →
                          ∃ bs2, fsLookup sB2.fs p = some bs2 ∧
                            (bs ≠ [] → bs2 ≠ []) := by
                        intro p bs h
                        obtain ⟨bs2, h1, h2⟩ := hF p bs h
                        refine ⟨bs2, ?_, h2⟩
                        rw [hS2]
                        exact h1
                      obtain ⟨hT2, hT3, hT4, Dt, Stl, S2t, htd, hts, hts2, htperm⟩ :=
                        ih ns b r _ _ _ htail hfailtail f2 _ _ _ hFt htail2
                      refine ⟨?_, ?_, ?_, Ds ++ Dt, Ss ++ Stl, S2s ++ S2t,
                        ?_, ?_, ?_, perm_four hsperm htperm⟩
                      · rw [hT2, hS2]
                      · rw [hT3, hS3]
                      · rw [hT4, hS4]
                      · rw [htd, hsd, List.append_assoc]
                      · rw [hts, hss, List.append_assoc]
                      · rw [hts2, hss2, List.append_assoc]
        · -- children already cached on the node in both runs
          simp only [hch] at hp
          rcases hrec : process env f cs (b ++ '/' :: n.name)
              (if r = [] then n.name else r ++ '/' :: n.name)
              { st1 with dirs := st1.dirs ++ mkdirRec (b ++ '/' :: n.name) }
            with _ | ⟨cs1, sB⟩
          · simp only [hrec] at hp
            exact Option.noConfusion hp
          · simp only [hrec] at hp
            rcases htail : process env f ns b r sB with _ | ⟨ns1, s1f⟩
            · simp only [htail] at hp
              exact Option.noConfusion hp
            · simp only [htail, Option.some.injEq, Prod.mk.injEq] at hp
              obtain ⟨rfl, rfl⟩ := hp
              obtain ⟨⟨Dr, Sr, Fr, hrd, hrs, hrf⟩, hrp⟩ :=
                process_effects env hA f cs _ _ _ _ _ hrec
              obtain ⟨⟨Dt0, St0, Ft0, htd0, hts0, htf0⟩, htp0⟩ :=
                process_effects env hA f ns _ _ _ _ _ htail
              obtain ⟨hFr, hFt0⟩ := append_self_nil
                (hfail.symm.trans
                  (show s1f.failedFiles = (st1.failedFiles ++ Fr) ++ Ft0 by
                    rw [htf0, hrf]))
              have hfailrec : sB.failedFiles = st1.failedFiles := by
                rw [hrf, hFr, List.append_nil]
              have hfailtail : s1f.failedFiles = sB.failedFiles := by
                rw [htf0, hFt0, List.append_nil]
              rcases fuel2 with _ | f2
              · simp [process] at hp2
              · simp only [process, htyp, henv, Bool.false_eq_true, if_false,
                  hch] at hp2
                rcases hrec2 : process env f2 cs (b ++ '/' :: n.name)
                    (if r = [] then n.name else r ++ '/' :: n.name)
                    { st2 with dirs := st2.dirs ++ mkdirRec (b ++ '/' :: n.name) }
                  with _ | ⟨cs2, sB2⟩
                · simp only [hrec2] at hp2
                  exact Option.noConfusion hp2
                · simp only [hrec2] at hp2
                  rcases htail2 : process env f2 ns b r sB2 with _ | ⟨ns2, s2f⟩
                  · simp only [htail2] at hp2
                    exact Option.noConfusion hp2
                  · simp only [htail2, Option.some.injEq, Prod.mk.injEq] at hp2
                    obtain ⟨rfl, rfl⟩ := hp2
                    have hFseg : ∀ p bs, fsLookup sB.fs p = some bs →
                        ∃ bs2, fsLookup st2.fs p = some bs2 ∧
                          (bs ≠ [] → bs2 ≠ []) := by
                      intro p bs h
                      obtain ⟨bp, h1, h2⟩ := htp0 p bs h
                      obtain ⟨bs2, h3, h4⟩ := hF p bp h1
                      exact ⟨bs2, h3, fun hh => h4 (h2 hh)⟩
                    obtain ⟨hS2, hS3, hS4, Ds, Ss, S2s, hsd, hss, hss2, hsperm⟩ :=
                      ih cs (b ++ '/' :: n.name)
                        (if r = [] then n.name else r ++ '/' :: n.name)
                        _ _ _ hrec hfailrec f2
                        { st2 with dirs := st2.dirs ++ mkdirRec (b ++ '/' :: n.name) }
                        _ _ hFseg hrec2
                    have hFt : ∀ p bs, fsLookup s1f.fs p = some bs →
                        ∃ bs2, fsLookup sB2.fs p = some bs2 ∧
                          (bs ≠ [] → bs2 ≠ []) := by
                      intro p bs h
                      obtain ⟨bs2, h1, h2⟩ := hF p bs h
                      refine ⟨bs2, ?_, h2⟩
                      rw [hS2]
                      exact h1
                    obtain ⟨hT2, hT3, hT4, Dt, Stl, S2t, htd, hts, hts2, htperm⟩ :=
                      ih ns b r _ _ _ htail hfailtail f2 _ _ _ hFt htail2
                    refine ⟨?_, ?_, ?_, Ds ++ Dt, Ss ++ Stl, S2s ++ S2t,
                      ?_, ?_, ?_, perm_four hsperm htperm⟩
                    · rw [hT2, hS2]
                    · rw [hT3, hS3]
                    · rw [hT4, hS4]
                    · rw [htd, hsd, List.append_assoc]
                    · rw [hts, hss, List.append_assoc]
                    · rw [hts2, hss2, List.append_assoc]
      -- lambda node
      · simp only [process, htyp] at hp
        rcases htail : process env f ns b r
            { st1 with logs := st1.logs ++ [lambdaMsg (b ++ '/' :: n.name)] }
          with _ | ⟨ns1, s1f⟩
        · simp only [htail] at hp
          exact Option.noConfusion hp
        · simp only [htail, Option.some.injEq, Prod.mk.injEq] at hp
          obtain ⟨rfl, rfl⟩ := hp
          rcases fuel2 with _ | f2
          · simp [process] at hp2
          · simp only [process, htyp] at hp2
            rcases htail2 : process env f2 ns b r
                { st2 with logs := st2.logs ++ [lambdaMsg (b ++ '/' :: n.name)] }
              with _ | ⟨ns2, s2f⟩
            · simp only [htail2] at hp2
              exact Option.noConfusion hp2
            · simp only [htail2, Option.some.injEq, Prod.mk.injEq] at hp2
              obtain ⟨rfl, rfl⟩ := hp2
              obtain ⟨hT2, hT3, hT4, Dt, Stl, S2t, htd, hts, hts2, htperm⟩ :=
                ih ns b r _ _ _ htail hfail f2
                  { st2 with logs := st2.logs ++ [lambdaMsg (b ++ '/' :: n.name)] }
                  _ _ hF htail2
              exact ⟨hT2, hT3, hT4, Dt, Stl, S2t, htd, hts, hts2, htperm⟩

end VercelDL

namespace VercelDL

/-- **C2** (amended).  Idempotence of the traversal holds only for remote
files with non-empty content: after a first run with no `Failed` record,
a second run over the same tree against the unchanged remote, starting
from the disk state the first run produced (and fresh outcome lists),
records zero `Downloaded` and zero `Failed` outcomes, writes nothing to
disk, and its `Skipped` records are exactly (a permutation of) the first
run's `Downloaded` and `Skipped` records together.  The hypothesis that
every fetch returns non-empty bytes is essential: the original claim's
parenthetical "including files whose remote content is zero bytes" is
refuted by the counterexample, because the cache check `stats.size > 0`
(README.md line 1652) treats a zero-byte file as absent and re-downloads
it on every run. -/
theorem c2_idempotent_rerun (env : Env) (henv : env.retryOnlyPaths = none)
    (hA : ∀ u bs, env.download u = Except.ok bs → bs ≠ [])
    (fuel1 fuel2 : Nat) (nodes : List FileNode) (b r : Str)
    (st1 : St) (t1 : List FileNode) (s1 : St)
    (st2 : St) (t2 : List FileNode) (s2 : St)
    (hst1d : st1.downloadedFiles = []) (hst1s : st1.skippedFiles = [])
    (hst1f : st1.failedFiles = [])
    (h1 : process env fuel1 nodes b r st1 = some (t1, s1))
    (hnf : s1.failedFiles = [])
    (hst2 : st2.fs = s1.fs)
    (hst2d : st2.downloadedFiles = []) (hst2s : st2.skippedFiles = [])
    (hst2f : st2.failedFiles = [])
    (h2 : process env fuel2 nodes b r st2 = some (t2, s2)) :
    s2.downloadedFiles = [] ∧ s2.failedFiles = [] ∧ s2.fs = st2.fs ∧
    s2.skippedFiles.Perm (s1.downloadedFiles ++ s1.skippedFiles) := by
  obtain ⟨hfs, hdy, hfy, D, S, S2, hD, hS, hS2, hperm⟩ :=
    rerun_sim env henv hA fuel1 nodes b r st1 t1 s1 h1
      (hnf.trans hst1f.symm) fuel2 st2 t2 s2
      (fun p bs h => ⟨bs, by rw [hst2]; exact h, fun hh => hh⟩) h2
  have hD2 : s1.downloadedFiles = D := by
    rw [hst1d] at hD
    simpa using hD
  have hS2b : s1.skippedFiles = S := by
    rw [hst1s] at hS
    simpa using hS
  refine ⟨?_, ?_, hfs, ?_⟩
  · rw [hdy, hst2d]
  · rw [hfy, hst2f]
  · rw [hS2, hst2s, hD2, hS2b]
    simpa using hperm

def c2wEnv : Env :=
  { retryOnlyPaths := none, tree := errTree, download := okDownload [7],
    deploymentId := lit "dpl", teamId := none }

def c2wNode : FileNode :=
  { name := lit "a.txt", typ := NType.file, link := some (lit "/files/ab12"),
    children := none }

def c2wFull : Str := lit "out/a.txt"

/-- State after the first run: the file was downloaded with content `[7]`. -/
def c2wS1 : St :=
  { fs := [(c2wFull, [7])], dirs := [lit "out"], fetched := [],
    downloadedFiles := [c2wFull], skippedFiles := [], failedFiles := [],
    logs := [downloadedMsg c2wFull] }

/-- Fresh second invocation: the disk persists, the stats reset. -/
def c2wSt2 : St :=
  { fs := [(c2wFull, [7])], dirs := [], fetched := [],
    downloadedFiles := [], skippedFiles := [], failedFiles := [], logs := [] }

/-- State after the second run: the non-empty cached file is skipped. -/
def c2wS2 : St :=
  { fs := [(c2wFull, [7])], dirs := [], fetched := [],
    downloadedFiles := [], skippedFiles := [c2wFull], failedFiles := [],
    logs := [skipMsg c2wFull] }

theorem c2_idempotent_rerun_witness :
    c2wS2.downloadedFiles = [] ∧ c2wS2.failedFiles = [] ∧ c2wS2.fs = c2wSt2.fs ∧
    c2wS2.skippedFiles.Perm (c2wS1.downloadedFiles ++ c2wS1.skippedFiles) :=
  c2_idempotent_rerun c2wEnv rfl
    (fun u bs h => by
      simp only [c2wEnv, okDownload, Except.ok.injEq] at h
      rw [← h]
      decide)
    1 1 [c2wNode] (lit "out") [] st0 [c2wNode] c2wS1 c2wSt2 [c2wNode] c2wS2
    rfl rfl rfl (by rfl) rfl rfl rfl rfl rfl (by rfl)

def c2xEnv : Env :=
  { retryOnlyPaths := none, tree := errTree, download := okDownload [],
    deploymentId := lit "dpl", teamId := none }

/-- First run against a remote whose file content is zero bytes. -/
def c2xS1 : St :=
  { fs := [(c2wFull, [])], dirs := [lit "out"], fetched := [],
    downloadedFiles := [c2wFull], skippedFiles := [], failedFiles := [],
    logs := [downloadedMsg c2wFull] }

/-- Fresh second invocation over the zero-byte disk state. -/
def c2xSt2 : St :=
  { fs := [(c2wFull, [])], dirs := [], fetched := [],
    downloadedFiles := [], skippedFiles := [], failedFiles := [], logs := [] }

/-- Second run: the zero-byte file is re-downloaded, not skipped. -/
def c2xS2 : St :=
  { fs := [(c2wFull, []), (c2wFull, [])], dirs := [lit "out"], fetched := [],
    downloadedFiles := [c2wFull], skippedFiles := [], failedFiles := [],
    logs := [downloadedMsg c2wFull] }

/-- Counterexample to the literal C2: with a zero-byte remote file, the
first run downloads it successfully (no failure), yet the second run
against the unchanged remote downloads it **again** and records no
`Skipped` outcome, contradicting "every file node resolves to Skipped
(including files whose remote content is zero bytes)". -/
theorem c2_counterexample :
    process c2xEnv 1 [c2wNode] (lit "out") [] st0 = some ([c2wNode], c2xS1) ∧
    c2xS1.failedFiles = [] ∧ c2xS1.downloadedFiles = [c2wFull] ∧
    process c2xEnv 1 [c2wNode] (lit "out") [] c2xSt2 = some ([c2wNode], c2xS2) ∧
    c2xS2.downloadedFiles ≠ [] ∧ c2xS2.skippedFiles = [] :=
  ⟨rfl, rfl, rfl, rfl, by decide, rfl⟩

end VercelDL
